import Mathlib

/-!
# Photometric stereo (`reconstruct3d/main.cpp`): embedding and properties

The development embeds the three routines of `main.cpp`:

* `main`             (lines 39-122): the reading of the light samples and the
  hand-over to the estimator;
* `calcualte_normal` (lines 139-179): the per-pixel normal / albedo estimation;
* `calculate_depth`  (lines 184-219): the integration of the slope fields.

How the program is read:

* Numbers.  The `float` / `double` values are elements of an ordered field `K` with exact
  arithmetic (`ℚ` or `ℝ` at the concrete inputs); rounding, infinities and NaN are not
  represented.
* Matrices.  An image or a map is a `Mat`: `rows`, `cols` and the row-major buffer, so that
  `at<T>(i, j)` and `at<T>(i * cols + j)` address the same element.  The small matrices
  `S` (`n x 3`), `S_sol` (`3 x n`), `I` (`n x 1`) and `b` (`3 x 1`) are matrices and vectors
  over `Fin n` and `Fin 3`; `vector<pair<Vec3f, Mat>>` of size `n` is a function on `Fin n`.
* OpenCV.  The library is not part of the repository.  `cv::invert(_, _, DECOMP_SVD)` and
  the square root inside `cv::norm(_, NORM_L2)` are parameters (`invert`, `sqrt`), on which
  the statements put the hypotheses they need.  `cv::split`, `cv::divide`, unary minus,
  `+` and the matrix product are the element-wise and algebraic operations; a quotient
  with divisor 0 has the value `x / 0 = 0` of the field, and the concrete inputs below
  have `nz ≠ 0` at every pixel.
  `S.row(i) = data[i].first` assigns a `Vec3f` to the header of a one-channel row: the
  overload it binds to is `Mat::operator=(const Scalar&)`, which sets every element of the
  row to the first component of the vector, so row `i` of `S` is `(x, x, x)` for the
  direction `(x, y, z)` of sample `i`.
* Loops.  A `for` loop is a fold over the list of its index values, with the variables it
  updates as the state.
* Undefined reads (`data[0]` of an empty vector, `at` past the end of a buffer) make the
  result `none`.
* Display (`plot`, `waitKey`) and the option `-o` do not enter.
-/

namespace PhotometricStereo

/-! ## Data model -/

/-- The type `cv::Vec3f`: three components, indexed 0, 1, 2. -/
abbrev Vec3f (K : Type) : Type := Fin 3 → K

/-- A dense `cv::Mat`: `rows`, `cols` and the row-major element buffer. -/
structure Mat (α : Type) where
  rows : Nat
  cols : Nat
  data : List α

namespace Mat

variable {α : Type}

/-- The buffer of a `cv::Mat` holds `rows * cols` elements. -/
def WF (m : Mat α) : Prop := m.data.length = m.rows * m.cols

instance (m : Mat α) : Decidable m.WF := by
  unfold WF; infer_instance

/-- The test `mat.empty()`: no element. -/
def empty (m : Mat α) : Bool := m.data.isEmpty

/-- The calls `create(size, type); setTo(0)`. -/
def zeros [Zero α] (rows cols : Nat) : Mat α :=
  ⟨rows, cols, List.replicate (rows * cols) 0⟩

/-- Read `m.at<T>(idx)` at a flat (row-major) index. -/
def atIdx [Zero α] (m : Mat α) (idx : Nat) : α := m.data.getD idx 0

/-- Read `m.at<T>(i, j)`. -/
def atRC [Zero α] (m : Mat α) (i j : Nat) : α := m.data.getD (i * m.cols + j) 0

/-- Write `m.at<T>(idx) = v` at a flat index. -/
def setIdx (m : Mat α) (idx : Nat) (v : α) : Mat α :=
  { m with data := m.data.set idx v }

/-- Write `m.at<T>(i, j) = v`. -/
def setRC (m : Mat α) (i j : Nat) (v : α) : Mat α :=
  { m with data := m.data.set (i * m.cols + j) v }

end Mat

/-! ## `calculate_depth` -/

section Depth

variable {K : Type} [Field K]

/-- Channel `c` of `cv::split(_normal, normals)`. -/
def split (normal : Mat (Vec3f K)) (c : Fin 3) : Mat K :=
  ⟨normal.rows, normal.cols, normal.data.map (fun v => v c)⟩

/-- Element-wise quotient `cv::divide(a, b, dst)`. -/
def divide (a b : Mat K) : Mat K :=
  ⟨a.rows, a.cols, List.zipWith (fun x y => x / y) a.data b.data⟩

/-- Element-wise `-a`. -/
def negate (a : Mat K) : Mat K :=
  ⟨a.rows, a.cols, a.data.map (fun x => -x)⟩

/-- Element-wise `a + b`. -/
def add (a b : Mat K) : Mat K :=
  ⟨a.rows, a.cols, List.zipWith (fun x y => x + y) a.data b.data⟩

/-- The body of the double loop (lines 212-213), on the pair `(n1, n2)`. -/
def depth_step (i j : Nat) (st : Mat K × Mat K) : Mat K × Mat K :=
  let n1 := st.1.setRC i j (st.1.atRC i j + st.1.atRC (i - 1) j)
  let n2 := st.2.setRC i j (st.2.atRC i j + st.2.atRC i (j - 1))
  (n1, n2)

/-- The double loop of lines 210-215: `i` from 1 below `rows`, `j` from 1 below `cols`. -/
def depth_loop (rows cols : Nat) (st : Mat K × Mat K) : Mat K × Mat K :=
  (List.range' 1 (rows - 1)).foldl
    (fun st i => (List.range' 1 (cols - 1)).foldl (fun st j => depth_step i j st) st) st

/-- The function `calculate_depth` (lines 184-219). -/
def calculate_depth (normal : Mat (Vec3f K)) : Mat K :=
  let normals := split normal
  let n2 := negate (divide (normals 0) (normals 2))
  let n1 := negate (divide (normals 1) (normals 2))
  let st := depth_loop n1.rows n1.cols (n1, n2)
  add st.1 st.2

/-- The slope `p(i, j) = -nx / nz` of the specification. -/
def slope_p (normal : Mat (Vec3f K)) (i j : Nat) : K :=
  -(normal.atRC i j 0 / normal.atRC i j 2)

/-- The slope `q(i, j) = -ny / nz` of the specification. -/
def slope_q (normal : Mat (Vec3f K)) (i j : Nat) : K :=
  -(normal.atRC i j 1 / normal.atRC i j 2)

/-- The first statement of the loop body (line 212), on `n1` alone. -/
def colsum_step (i j : Nat) (a : Mat K) : Mat K :=
  a.setRC i j (a.atRC i j + a.atRC (i - 1) j)

/-- The second statement of the loop body (line 213), on `n2` alone. -/
def rowsum_step (i j : Nat) (b : Mat K) : Mat K :=
  b.setRC i j (b.atRC i j + b.atRC i (j - 1))

/-- A 2 x 3 normal map with `nz = 1`, `p(i, j) = i` and `q(i, j) = j`: the slope field of
the depth field `D(i, j) = i * j`. -/
def saddle_normals : Mat (Vec3f ℚ) :=
  ⟨2, 3, [![0, 0, 1], ![0, -1, 1], ![0, -2, 1], ![-1, 0, 1], ![-1, -1, 1], ![-1, -2, 1]]⟩

/-- The depth field `D(i, j) = i * j`. -/
def saddle_depth (i j : Nat) : ℚ := (i : ℚ) * (j : ℚ)

end Depth


/-! ## `calcualte_normal` -/

section Normal

variable {K : Type} [LinearOrderedField K]

/-- One light sample: the direction and the image, `pair<Vec3f, Mat>`. -/
abbrev Sample (K : Type) : Type := Vec3f K × Mat K

/-- The constant `numeric_limits<double>::epsilon()`, that is `2^-52`. -/
def eps : K := 1 / 2 ^ 52

/-- The call `norm(b, NORM_L2)` on a 3 x 1 matrix, given the square root. -/
def norm_L2 (sqrt : K → K) (b : Vec3f K) : K :=
  sqrt (b 0 * b 0 + b 1 * b 1 + b 2 * b 2)

/-- The matrix `S` the program builds (lines 144-147).  `S.row(i) = data[i].first` assigns
a `Vec3f` to a row of the one-channel matrix `S`; it binds to
`Mat::operator=(const Scalar&)` and sets the three elements of the row to the first
component of the direction. -/
def light_matrix {n : Nat} (data : Fin n → Sample K) : Matrix (Fin n) (Fin 3) K :=
  Matrix.of (fun i _ => (data i).1 0)

/-- The light matrix of the specification: row `k` is the direction vector of sample `k`. -/
def spec_light_matrix {n : Nat} (data : Fin n → Sample K) : Matrix (Fin n) (Fin 3) K :=
  Matrix.of (fun i => (data i).1)

/-- The intensity vector `I` (lines 165-168): `I(k) = data[k].second.at<float>(idx)`.
A read past the end of an image buffer has no defined result: `none`. -/
def gather {n : Nat} (data : Fin n → Sample K) (idx : Nat) : Option (Fin n → K) :=
  if h : ∀ k : Fin n, idx < (data k).2.data.length then
    some (fun k => (data k).2.data.get ⟨idx, h k⟩)
  else none

/-- The body of the pixel loop (lines 165-176) at row `i`, row offset `r_idx`, column `j`,
on the pair `(normal, albedo)`. -/
def normal_step (sqrt : K → K) {n : Nat} (S_sol : Matrix (Fin 3) (Fin n) K)
    (data : Fin n → Sample K) (i r_idx j : Nat) (st : Mat (Vec3f K) × Mat K) :
    Option (Mat (Vec3f K) × Mat K) :=
  match gather data (r_idx + j) with
  | none => none
  | some I =>
    let b := S_sol.mulVec I
    let albedo_val := norm_L2 sqrt b
    if albedo_val > eps then
      some (st.1.setRC i j (fun c => b c / albedo_val), st.2.setIdx (r_idx + j) albedo_val)
    else some st

/-- The inner loop (line 164): `j` from 0 below `width`. -/
def normal_row (sqrt : K → K) {n : Nat} (S_sol : Matrix (Fin 3) (Fin n) K)
    (data : Fin n → Sample K) (width i r_idx : Nat) (st : Mat (Vec3f K) × Mat K) :
    Option (Mat (Vec3f K) × Mat K) :=
  (List.range width).foldlM (fun st j => normal_step sqrt S_sol data i r_idx j st) st

/-- The outer loop (line 163): `i` from 0 below `height`, `r_idx` advancing by `width`. -/
def normal_loop (sqrt : K → K) {n : Nat} (S_sol : Matrix (Fin 3) (Fin n) K)
    (data : Fin n → Sample K) (height width : Nat) (st : Mat (Vec3f K) × Mat K) :
    Option ((Mat (Vec3f K) × Mat K) × Nat) :=
  (List.range height).foldlM
    (fun (acc : (Mat (Vec3f K) × Mat K) × Nat) i =>
      match normal_row sqrt S_sol data width i acc.2 acc.1 with
      | none => none
      | some st => some (st, acc.2 + width))
    (st, 0)

/-- The function `calcualte_normal` (lines 139-179); the result is `(normal, albedo)`.
With no sample, `data[0]` has no defined result: `none`. -/
def calcualte_normal (sqrt : K → K) {n : Nat}
    (invert : Matrix (Fin n) (Fin 3) K → Matrix (Fin 3) (Fin n) K)
    (data : Fin n → Sample K) : Option (Mat (Vec3f K) × Mat K) :=
  if hn : 0 < n then
    let height := (data ⟨0, hn⟩).2.rows
    let width := (data ⟨0, hn⟩).2.cols
    let S := light_matrix data
    let S_sol := invert S
    let normal : Mat (Vec3f K) := Mat.zeros height width
    let albedo : Mat K := Mat.zeros height width
    match normal_loop sqrt S_sol data height width (normal, albedo) with
    | none => none
    | some acc => some acc.1
  else none

/-- The vector `b = S_sol * I` at flat pixel index `idx`. -/
def pixel_b {n : Nat} (S_sol : Matrix (Fin 3) (Fin n) K) (data : Fin n → Sample K)
    (idx : Nat) : Vec3f K :=
  S_sol.mulVec (fun k => (data k).2.atIdx idx)

/-- Both output maps have `H` rows, `W` columns and a full buffer. -/
def Shaped (H W : Nat) (st : Mat (Vec3f K) × Mat K) : Prop :=
  st.1.rows = H ∧ st.1.cols = W ∧ st.1.WF ∧ st.2.rows = H ∧ st.2.cols = W ∧ st.2.WF

end Normal

/-! ## `main` -/

section Main

variable {K : Type} [LinearOrderedField K]

/-- The three ways `main` returns `ERROR` (lines 58-61, 71-74, 90-93). -/
inductive MainError where
  | input_not_specific
  | light_source_file_not_found
  | image_not_found
  deriving DecidableEq

/-- What a run that reaches line 99 does: the size `n` of `data` handed to
`calcualte_normal`, the maps it returns and the depth map. -/
structure MainRun (K : Type) where
  n : Nat
  maps : Option (Mat (Vec3f K) × Mat K)
  depth : Option (Mat K)

/-- The reading loop (lines 78-97).  A line of the light source file is given by the
direction read from it and the matrix `imread(..).convertTo(..)` leaves, empty when the
image is not found.  The loop stops at the first empty matrix, else appends the pair. -/
def read_data : List (Sample K) → List (Sample K) → Except MainError (List (Sample K))
  | [], data => Except.ok data
  | line :: rest, data =>
    if line.2.empty then Except.error MainError.image_not_found
    else read_data rest (data ++ [line])

/-- The function `main` (lines 39-122), from the outcome of the option parsing
(`has_input`: `optind < argc`), of opening the light source file (`file_open`) and
the lines of that file. -/
def main (sqrt : K → K)
    (invert : (n : Nat) → Matrix (Fin n) (Fin 3) K → Matrix (Fin 3) (Fin n) K)
    (has_input file_open : Bool) (lines : List (Sample K)) : Except MainError (MainRun K) :=
  if has_input = false then Except.error MainError.input_not_specific
  else if file_open = false then Except.error MainError.light_source_file_not_found
  else
    match read_data lines [] with
    | Except.error e => Except.error e
    | Except.ok data =>
      let maps := calcualte_normal sqrt (invert data.length) (fun k : Fin data.length => data.get k)
      Except.ok ⟨data.length, maps, maps.map (fun m => calculate_depth m.1)⟩

end Main

/-! ## Notions used in the statements -/

section Notions

variable {K : Type} [LinearOrderedField K]

/-- The parameter `sqrt` is a square root on the non-negative numbers. -/
def IsSqrt (sqrt : K → K) : Prop :=
  ∀ x : K, 0 ≤ x → 0 ≤ sqrt x ∧ sqrt x * sqrt x = x

/-- The four Penrose conditions: `X` is the Moore-Penrose pseudoinverse of `A`. -/
def IsMoorePenrose {n : Nat} (A : Matrix (Fin n) (Fin 3) K) (X : Matrix (Fin 3) (Fin n) K) :
    Prop :=
  A * X * A = A ∧ X * A * X = X ∧ (A * X).transpose = A * X ∧ (X * A).transpose = X * A

/-- The scalar product of two 3-vectors. -/
def dot3 (u v : Vec3f K) : K := u 0 * v 0 + u 1 * v 1 + u 2 * v 2

/-- The light directions lie on one line through the origin. -/
def Collinear {n : Nat} (L : Fin n → Vec3f K) : Prop :=
  ∃ v : Vec3f K, ∀ k : Fin n, ∃ t : K, L k = fun c => t * v c

/-- Samples with one-pixel images: direction `L k`, intensity `I k`. -/
def one_pixel_data {n : Nat} (L : Fin n → Vec3f K) (I : Fin n → K) : Fin n → Sample K :=
  fun k => (L k, ⟨1, 1, [I k]⟩)

/-- Synthetic Lambertian samples with one-pixel images: `I_k = a * max(0, N . L_k)`. -/
def lambert_data {n : Nat} (N : Vec3f K) (a : K) (L : Fin n → Vec3f K) : Fin n → Sample K :=
  one_pixel_data L (fun k => a * max 0 (dot3 N (L k)))

/-- The three coordinate axes as light directions. -/
def axis_directions : Fin 3 → Vec3f K := ![![1, 0, 0], ![0, 1, 0], ![0, 0, 1]]

end Notions

/-! ## Lemmas on the element buffer -/

section BufferLemmas

variable {α : Type}

theorem flat_index_inj {c i j i' j' : Nat} (hj : j < c) (hj' : j' < c)
    (h : i * c + j = i' * c + j') : i = i' ∧ j = j' := by
  have h1 : (i * c + j) / c = i := by
    rw [Nat.add_comm, Nat.add_mul_div_right _ _ (by omega), Nat.div_eq_of_lt hj]; simp
  have h2 : (i' * c + j') / c = i' := by
    rw [Nat.add_comm, Nat.add_mul_div_right _ _ (by omega), Nat.div_eq_of_lt hj']; simp
  have hii : i = i' := by rw [← h1, ← h2, h]
  subst hii
  exact ⟨rfl, by omega⟩

theorem flat_index_lt {r c i j : Nat} (hi : i < r) (hj : j < c) : i * c + j < r * c := by
  have h1 : (i + 1) * c ≤ r * c := Nat.mul_le_mul_right c hi
  have h2 : (i + 1) * c = i * c + c := by ring
  omega

theorem getD_set_in {l : List α} {n : Nat} (hn : n < l.length) (m : Nat) (a d : α) :
    (l.set n a).getD m d = if m = n then a else l.getD m d := by
  simp only [List.getD_eq_getElem?_getD, List.getElem?_set]
  by_cases h : n = m
  · subst h; simp [hn]
  · have h' : ¬ m = n := fun e => h e.symm
    simp [h, h']

namespace Mat

theorem atRC_setRC [Zero α] (m : Mat α) (hwf : m.WF) {i j : Nat} (hi : i < m.rows)
    (hj : j < m.cols) (v : α) (i' j' : Nat) (hj' : j' < m.cols) :
    (m.setRC i j v).atRC i' j' = if i' = i ∧ j' = j then v else m.atRC i' j' := by
  have hlt : i * m.cols + j < m.data.length := by
    rw [hwf]; exact flat_index_lt hi hj
  simp only [atRC, setRC, getD_set_in hlt]
  by_cases h : i' * m.cols + j' = i * m.cols + j
  · have := flat_index_inj hj' hj h
    simp [h, this]
  · have h' : ¬ (i' = i ∧ j' = j) := by
      rintro ⟨rfl, rfl⟩; exact h rfl
    simp [h, h']

theorem setRC_rows (m : Mat α) (i j : Nat) (v : α) : (m.setRC i j v).rows = m.rows := rfl

theorem setRC_cols (m : Mat α) (i j : Nat) (v : α) : (m.setRC i j v).cols = m.cols := rfl

theorem setRC_WF (m : Mat α) (hwf : m.WF) (i j : Nat) (v : α) : (m.setRC i j v).WF := by
  simp only [WF, setRC, List.length_set]; exact hwf

end Mat

end BufferLemmas

/-! ## Lemmas on the loop of `calculate_depth` -/

section DepthLemmas

variable {K : Type} [Field K]

theorem foldl_pair {σ τ β : Type} (f : β → σ → σ) (g : β → τ → τ) (l : List β) (st : σ × τ) :
    l.foldl (fun st x => (f x st.1, g x st.2)) st
      = (l.foldl (fun a x => f x a) st.1, l.foldl (fun b x => g x b) st.2) := by
  induction l generalizing st with
  | nil => rfl
  | cons x xs ih => simp only [List.foldl_cons, ih]

theorem depth_loop_eq (rows cols : Nat) (st : Mat K × Mat K) :
    depth_loop rows cols st
      = ((List.range' 1 (rows - 1)).foldl
            (fun a i => (List.range' 1 (cols - 1)).foldl (fun a j => colsum_step i j a) a) st.1,
         (List.range' 1 (rows - 1)).foldl
            (fun b i => (List.range' 1 (cols - 1)).foldl (fun b j => rowsum_step i j b) b) st.2) := by
  unfold depth_loop
  have hin : ∀ (i : Nat) (st : Mat K × Mat K),
      (List.range' 1 (cols - 1)).foldl (fun st j => depth_step i j st) st
        = ((List.range' 1 (cols - 1)).foldl (fun a j => colsum_step i j a) st.1,
           (List.range' 1 (cols - 1)).foldl (fun b j => rowsum_step i j b) st.2) := by
    intro i st
    exact foldl_pair (fun j a => colsum_step i j a) (fun j b => rowsum_step i j b) _ st
  simp only [hin]
  exact foldl_pair
    (fun i a => (List.range' 1 (cols - 1)).foldl (fun a j => colsum_step i j a) a)
    (fun i b => (List.range' 1 (cols - 1)).foldl (fun b j => rowsum_step i j b) b) _ st

/-- Row `i` of the loop on `n1`, after the columns `1 .. t`. -/
theorem colsum_inner (m : Mat K) (hwf : m.WF) (i : Nat) (hi1 : 1 ≤ i) (hi : i < m.rows)
    (t : Nat) (ht : t ≤ m.cols - 1) :
    ((List.range' 1 t).foldl (fun a j => colsum_step i j a) m).rows = m.rows ∧
    ((List.range' 1 t).foldl (fun a j => colsum_step i j a) m).cols = m.cols ∧
    ((List.range' 1 t).foldl (fun a j => colsum_step i j a) m).WF ∧
    ∀ i' j', j' < m.cols →
      ((List.range' 1 t).foldl (fun a j => colsum_step i j a) m).atRC i' j'
        = if i' = i ∧ 1 ≤ j' ∧ j' ≤ t then m.atRC i j' + m.atRC (i - 1) j' else m.atRC i' j' := by
  induction t with
  | zero =>
    refine ⟨rfl, rfl, hwf, ?_⟩
    intro i' j' _
    have : ¬ (i' = i ∧ 1 ≤ j' ∧ j' ≤ 0) := by omega
    rw [if_neg this]; rfl
  | succ t ih =>
    obtain ⟨hr, hc, hw, hat⟩ := ih (by omega)
    rw [List.range'_concat, List.foldl_append]
    simp only [List.foldl_cons, List.foldl_nil, Nat.one_mul]
    generalize (List.range' 1 t).foldl (fun a j => colsum_step i j a) m = r at hr hc hw hat ⊢
    unfold colsum_step
    refine ⟨by rw [Mat.setRC_rows, hr], by rw [Mat.setRC_cols, hc], Mat.setRC_WF _ hw _ _ _, ?_⟩
    intro i' j' hj'
    rw [Mat.atRC_setRC r hw (by rw [hr]; exact hi) (by rw [hc]; omega) _ _ _ (by rw [hc]; exact hj')]
    rw [hat i (1 + t) (by omega), hat (i - 1) (1 + t) (by omega), hat i' j' hj']
    have e1 : ¬ (i = i ∧ 1 ≤ 1 + t ∧ 1 + t ≤ t) := by omega
    have e2 : ¬ (i - 1 = i ∧ 1 ≤ 1 + t ∧ 1 + t ≤ t) := by omega
    rw [if_neg e1, if_neg e2]
    by_cases h1 : i' = i ∧ j' = 1 + t
    · obtain ⟨rfl, rfl⟩ := h1
      have : (i' = i' ∧ 1 ≤ 1 + t ∧ 1 + t ≤ t + 1) := by omega
      rw [if_pos ⟨rfl, rfl⟩, if_pos this]
    · rw [if_neg h1]
      by_cases h2 : i' = i ∧ 1 ≤ j' ∧ j' ≤ t
      · have : (i' = i ∧ 1 ≤ j' ∧ j' ≤ t + 1) := by omega
        rw [if_pos h2, if_pos this]
      · have : ¬ (i' = i ∧ 1 ≤ j' ∧ j' ≤ t + 1) := by omega
        rw [if_neg h2, if_neg this]

/-- Row `i` of the loop on `n2`, after the columns `1 .. t`. -/
theorem rowsum_inner (m : Mat K) (hwf : m.WF) (i : Nat) (hi : i < m.rows)
    (t : Nat) (ht : t ≤ m.cols - 1) :
    ((List.range' 1 t).foldl (fun b j => rowsum_step i j b) m).rows = m.rows ∧
    ((List.range' 1 t).foldl (fun b j => rowsum_step i j b) m).cols = m.cols ∧
    ((List.range' 1 t).foldl (fun b j => rowsum_step i j b) m).WF ∧
    ∀ i' j', j' < m.cols →
      ((List.range' 1 t).foldl (fun b j => rowsum_step i j b) m).atRC i' j'
        = if i' = i ∧ 1 ≤ j' ∧ j' ≤ t then ∑ k in Finset.range (j' + 1), m.atRC i k
          else m.atRC i' j' := by
  induction t with
  | zero =>
    refine ⟨rfl, rfl, hwf, ?_⟩
    intro i' j' _
    have : ¬ (i' = i ∧ 1 ≤ j' ∧ j' ≤ 0) := by omega
    rw [if_neg this]; rfl
  | succ t ih =>
    obtain ⟨hr, hc, hw, hat⟩ := ih (by omega)
    rw [List.range'_concat, List.foldl_append]
    simp only [List.foldl_cons, List.foldl_nil, Nat.one_mul]
    generalize (List.range' 1 t).foldl (fun b j => rowsum_step i j b) m = r at hr hc hw hat ⊢
    unfold rowsum_step
    refine ⟨by rw [Mat.setRC_rows, hr], by rw [Mat.setRC_cols, hc], Mat.setRC_WF _ hw _ _ _, ?_⟩
    intro i' j' hj'
    rw [Mat.atRC_setRC r hw (by rw [hr]; exact hi) (by rw [hc]; omega) _ _ _ (by rw [hc]; exact hj')]
    rw [hat i (1 + t) (by omega), hat i (1 + t - 1) (by omega), hat i' j' hj']
    have e1 : ¬ (i = i ∧ 1 ≤ 1 + t ∧ 1 + t ≤ t) := by omega
    rw [if_neg e1]
    have e2 : (if i = i ∧ 1 ≤ 1 + t - 1 ∧ 1 + t - 1 ≤ t
        then ∑ k in Finset.range (1 + t - 1 + 1), m.atRC i k else m.atRC i (1 + t - 1))
        = ∑ k in Finset.range (t + 1), m.atRC i k := by
      have ht1 : 1 + t - 1 = t := by omega
      rw [ht1]
      by_cases h0 : 1 ≤ t
      · rw [if_pos ⟨rfl, h0, le_refl t⟩]
      · have ht0 : t = 0 := by omega
        subst ht0
        simp
    rw [e2]
    by_cases h1 : i' = i ∧ j' = 1 + t
    · obtain ⟨rfl, rfl⟩ := h1
      have : (i' = i' ∧ 1 ≤ 1 + t ∧ 1 + t ≤ t + 1) := by omega
      rw [if_pos ⟨rfl, rfl⟩, if_pos this]
      have e3 : 1 + t + 1 = (t + 1) + 1 := by omega
      rw [e3, Finset.sum_range_succ _ (t + 1)]
      have e4 : t + 1 = 1 + t := by omega
      rw [add_comm, e4]
    · rw [if_neg h1]
      by_cases h2 : i' = i ∧ 1 ≤ j' ∧ j' ≤ t
      · have : (i' = i ∧ 1 ≤ j' ∧ j' ≤ t + 1) := by omega
        rw [if_pos h2, if_pos this]
      · have : ¬ (i' = i ∧ 1 ≤ j' ∧ j' ≤ t + 1) := by omega
        rw [if_neg h2, if_neg this]

/-- The loop on `n1`, after the rows `1 .. s`. -/
theorem colsum_outer (m : Mat K) (hwf : m.WF) (s : Nat) (hs : s ≤ m.rows - 1) :
    ((List.range' 1 s).foldl
      (fun a i => (List.range' 1 (m.cols - 1)).foldl (fun a j => colsum_step i j a) a) m).rows
        = m.rows ∧
    ((List.range' 1 s).foldl
      (fun a i => (List.range' 1 (m.cols - 1)).foldl (fun a j => colsum_step i j a) a) m).cols
        = m.cols ∧
    ((List.range' 1 s).foldl
      (fun a i => (List.range' 1 (m.cols - 1)).foldl (fun a j => colsum_step i j a) a) m).WF ∧
    ∀ i' j', j' < m.cols →
      ((List.range' 1 s).foldl
        (fun a i => (List.range' 1 (m.cols - 1)).foldl (fun a j => colsum_step i j a) a) m).atRC i' j'
        = if 1 ≤ i' ∧ i' ≤ s ∧ 1 ≤ j' then ∑ k in Finset.range (i' + 1), m.atRC k j'
          else m.atRC i' j' := by
  induction s with
  | zero =>
    refine ⟨rfl, rfl, hwf, ?_⟩
    intro i' j' _
    have : ¬ (1 ≤ i' ∧ i' ≤ 0 ∧ 1 ≤ j') := by omega
    rw [if_neg this]; rfl
  | succ s ih =>
    obtain ⟨hr, hc, hw, hat⟩ := ih (by omega)
    rw [List.range'_concat, List.foldl_append]
    simp only [List.foldl_cons, List.foldl_nil, Nat.one_mul]
    generalize (List.range' 1 s).foldl
      (fun a i => (List.range' 1 (m.cols - 1)).foldl (fun a j => colsum_step i j a) a) m
      = r at hr hc hw hat ⊢
    obtain ⟨hr', hc', hw', hat'⟩ :=
      colsum_inner r hw (1 + s) (by omega) (by rw [hr]; omega) (m.cols - 1) (by rw [hc])
    refine ⟨by rw [hr', hr], by rw [hc', hc], hw', ?_⟩
    intro i' j' hj'
    rw [hat' i' j' (by rw [hc]; exact hj'), hat (1 + s) j' hj', hat (1 + s - 1) j' hj', hat i' j' hj']
    have e1 : ¬ (1 ≤ 1 + s ∧ 1 + s ≤ s ∧ 1 ≤ j') := by omega
    rw [if_neg e1]
    by_cases h1 : i' = 1 + s ∧ 1 ≤ j' ∧ j' ≤ m.cols - 1
    · obtain ⟨rfl, h1j, _⟩ := h1
      have hp : (1 ≤ 1 + s ∧ 1 + s ≤ s + 1 ∧ 1 ≤ j') := by omega
      rw [if_pos ⟨rfl, h1j, by omega⟩, if_pos hp]
      have hs1 : 1 + s - 1 = s := by omega
      rw [hs1]
      have e2 : (if 1 ≤ s ∧ s ≤ s ∧ 1 ≤ j' then ∑ k in Finset.range (s + 1), m.atRC k j'
          else m.atRC s j') = ∑ k in Finset.range (s + 1), m.atRC k j' := by
        by_cases h0 : 1 ≤ s
        · rw [if_pos ⟨h0, le_refl s, h1j⟩]
        · have hs0 : s = 0 := by omega
          subst hs0
          simp
      rw [e2]
      have e3 : 1 + s + 1 = (s + 1) + 1 := by omega
      rw [e3, Finset.sum_range_succ _ (s + 1)]
      have e4 : s + 1 = 1 + s := by omega
      rw [add_comm, e4]
    · rw [if_neg h1]
      by_cases h2 : 1 ≤ i' ∧ i' ≤ s ∧ 1 ≤ j'
      · have : (1 ≤ i' ∧ i' ≤ s + 1 ∧ 1 ≤ j') := by omega
        rw [if_pos h2, if_pos this]
      · have : ¬ (1 ≤ i' ∧ i' ≤ s + 1 ∧ 1 ≤ j') := by omega
        rw [if_neg h2, if_neg this]

/-- The loop on `n2`, after the rows `1 .. s`. -/
theorem rowsum_outer (m : Mat K) (hwf : m.WF) (s : Nat) (hs : s ≤ m.rows - 1) :
    ((List.range' 1 s).foldl
      (fun b i => (List.range' 1 (m.cols - 1)).foldl (fun b j => rowsum_step i j b) b) m).rows
        = m.rows ∧
    ((List.range' 1 s).foldl
      (fun b i => (List.range' 1 (m.cols - 1)).foldl (fun b j => rowsum_step i j b) b) m).cols
        = m.cols ∧
    ((List.range' 1 s).foldl
      (fun b i => (List.range' 1 (m.cols - 1)).foldl (fun b j => rowsum_step i j b) b) m).WF ∧
    ∀ i' j', j' < m.cols →
      ((List.range' 1 s).foldl
        (fun b i => (List.range' 1 (m.cols - 1)).foldl (fun b j => rowsum_step i j b) b) m).atRC i' j'
        = if 1 ≤ i' ∧ i' ≤ s ∧ 1 ≤ j' then ∑ k in Finset.range (j' + 1), m.atRC i' k
          else m.atRC i' j' := by
  induction s with
  | zero =>
    refine ⟨rfl, rfl, hwf, ?_⟩
    intro i' j' _
    have : ¬ (1 ≤ i' ∧ i' ≤ 0 ∧ 1 ≤ j') := by omega
    rw [if_neg this]; rfl
  | succ s ih =>
    obtain ⟨hr, hc, hw, hat⟩ := ih (by omega)
    rw [List.range'_concat, List.foldl_append]
    simp only [List.foldl_cons, List.foldl_nil, Nat.one_mul]
    generalize (List.range' 1 s).foldl
      (fun b i => (List.range' 1 (m.cols - 1)).foldl (fun b j => rowsum_step i j b) b) m
      = r at hr hc hw hat ⊢
    obtain ⟨hr', hc', hw', hat'⟩ :=
      rowsum_inner r hw (1 + s) (by rw [hr]; omega) (m.cols - 1) (by rw [hc])
    refine ⟨by rw [hr', hr], by rw [hc', hc], hw', ?_⟩
    intro i' j' hj'
    rw [hat' i' j' (by rw [hc]; exact hj'), hat i' j' hj']
    have e0 : ∀ k ∈ Finset.range (j' + 1), r.atRC (1 + s) k = m.atRC (1 + s) k := by
      intro k hk
      have hk' : k < m.cols := by
        have := Finset.mem_range.mp hk
        omega
      rw [hat (1 + s) k hk']
      have : ¬ (1 ≤ 1 + s ∧ 1 + s ≤ s ∧ 1 ≤ k) := by omega
      rw [if_neg this]
    by_cases h1 : i' = 1 + s ∧ 1 ≤ j' ∧ j' ≤ m.cols - 1
    · obtain ⟨rfl, h1j, _⟩ := h1
      have hp : (1 ≤ 1 + s ∧ 1 + s ≤ s + 1 ∧ 1 ≤ j') := by omega
      rw [if_pos ⟨rfl, h1j, by omega⟩, if_pos hp]
      exact Finset.sum_congr rfl e0
    · rw [if_neg h1]
      by_cases h2 : 1 ≤ i' ∧ i' ≤ s ∧ 1 ≤ j'
      · have : (1 ≤ i' ∧ i' ≤ s + 1 ∧ 1 ≤ j') := by omega
        rw [if_pos h2, if_pos this]
      · have : ¬ (1 ≤ i' ∧ i' ≤ s + 1 ∧ 1 ≤ j') := by omega
        rw [if_neg h2, if_neg this]

/-- The slope matrix `-(split c / split 2)` holds `-(v c / v 2)` at each pixel `v`. -/
theorem slope_data_getD (l : List (Vec3f K)) (c : Fin 3) (idx : Nat) (h : idx < l.length) :
    (List.map (fun x => -x)
      (List.zipWith (fun x y => x / y) (l.map (fun v => v c)) (l.map (fun v => v 2)))).getD idx 0
      = -((l.getD idx 0) c / (l.getD idx 0) 2) := by
  simp only [List.getD_eq_getElem?_getD, List.getElem?_map, List.getElem?_zipWith,
    List.getElem?_eq_getElem h]
  rfl

theorem slope_mat_shape (normal : Mat (Vec3f K)) (hwf : normal.WF) (c : Fin 3) :
    (negate (divide (split normal c) (split normal 2))).rows = normal.rows ∧
    (negate (divide (split normal c) (split normal 2))).cols = normal.cols ∧
    (negate (divide (split normal c) (split normal 2))).WF := by
  refine ⟨rfl, rfl, ?_⟩
  simp only [Mat.WF, negate, divide, split, List.length_map, List.length_zipWith, min_self]
  exact hwf

theorem slope_mat_atRC (normal : Mat (Vec3f K)) (hwf : normal.WF) (c : Fin 3) (i j : Nat)
    (hi : i < normal.rows) (hj : j < normal.cols) :
    (negate (divide (split normal c) (split normal 2))).atRC i j
      = -(normal.atRC i j c / normal.atRC i j 2) := by
  have hlt : i * normal.cols + j < normal.data.length := by
    rw [hwf]; exact flat_index_lt hi hj
  exact slope_data_getD normal.data c _ hlt

theorem add_atRC (a b : Mat K) (hc : b.cols = a.cols) (i j : Nat)
    (ha : i * a.cols + j < a.data.length) (hb : i * a.cols + j < b.data.length) :
    (add a b).atRC i j = a.atRC i j + b.atRC i j := by
  simp only [Mat.atRC, add, hc, List.getD_eq_getElem?_getD, List.getElem?_zipWith,
    List.getElem?_eq_getElem ha, List.getElem?_eq_getElem hb]
  rfl

/-- The whole loop on `n1`, for a matrix of `R` rows and `C` columns. -/
theorem colsum_loop (m : Mat K) (hwf : m.WF) (R C : Nat) (hR : m.rows = R) (hC : m.cols = C) :
    ((List.range' 1 (R - 1)).foldl
      (fun a i => (List.range' 1 (C - 1)).foldl (fun a j => colsum_step i j a) a) m).cols = C ∧
    ((List.range' 1 (R - 1)).foldl
      (fun a i => (List.range' 1 (C - 1)).foldl (fun a j => colsum_step i j a) a) m).rows = R ∧
    ((List.range' 1 (R - 1)).foldl
      (fun a i => (List.range' 1 (C - 1)).foldl (fun a j => colsum_step i j a) a) m).data.length
        = R * C ∧
    ∀ i j, i < R → j < C →
      ((List.range' 1 (R - 1)).foldl
        (fun a i => (List.range' 1 (C - 1)).foldl (fun a j => colsum_step i j a) a) m).atRC i j
        = if 1 ≤ i ∧ 1 ≤ j then ∑ k in Finset.range (i + 1), m.atRC k j else m.atRC i j := by
  subst hR hC
  obtain ⟨hr, hc, hw, hat⟩ := colsum_outer m hwf (m.rows - 1) (le_refl _)
  refine ⟨hc, hr, ?_, ?_⟩
  · have := hw
    unfold Mat.WF at this
    rw [hr, hc] at this
    exact this
  · intro i j hi hj
    rw [hat i j hj]
    by_cases h : 1 ≤ i ∧ 1 ≤ j
    · rw [if_pos h, if_pos ⟨h.1, by omega, h.2⟩]
    · have h' : ¬ (1 ≤ i ∧ i ≤ m.rows - 1 ∧ 1 ≤ j) := by omega
      rw [if_neg h, if_neg h']

/-- The whole loop on `n2`, for a matrix of `R` rows and `C` columns. -/
theorem rowsum_loop (m : Mat K) (hwf : m.WF) (R C : Nat) (hR : m.rows = R) (hC : m.cols = C) :
    ((List.range' 1 (R - 1)).foldl
      (fun b i => (List.range' 1 (C - 1)).foldl (fun b j => rowsum_step i j b) b) m).cols = C ∧
    ((List.range' 1 (R - 1)).foldl
      (fun b i => (List.range' 1 (C - 1)).foldl (fun b j => rowsum_step i j b) b) m).rows = R ∧
    ((List.range' 1 (R - 1)).foldl
      (fun b i => (List.range' 1 (C - 1)).foldl (fun b j => rowsum_step i j b) b) m).data.length
        = R * C ∧
    ∀ i j, i < R → j < C →
      ((List.range' 1 (R - 1)).foldl
        (fun b i => (List.range' 1 (C - 1)).foldl (fun b j => rowsum_step i j b) b) m).atRC i j
        = if 1 ≤ i ∧ 1 ≤ j then ∑ k in Finset.range (j + 1), m.atRC i k else m.atRC i j := by
  subst hR hC
  obtain ⟨hr, hc, hw, hat⟩ := rowsum_outer m hwf (m.rows - 1) (le_refl _)
  refine ⟨hc, hr, ?_, ?_⟩
  · have := hw
    unfold Mat.WF at this
    rw [hr, hc] at this
    exact this
  · intro i j hi hj
    rw [hat i j hj]
    by_cases h : 1 ≤ i ∧ 1 ≤ j
    · rw [if_pos h, if_pos ⟨h.1, by omega, h.2⟩]
    · have h' : ¬ (1 ≤ i ∧ i ≤ m.rows - 1 ∧ 1 ≤ j) := by omega
      rw [if_neg h, if_neg h']

/-- The function `calculate_depth`, with the two running sums apart. -/
theorem calculate_depth_eq (normal : Mat (Vec3f K)) :
    calculate_depth normal
      = add
          ((List.range' 1 (normal.rows - 1)).foldl
            (fun a i => (List.range' 1 (normal.cols - 1)).foldl (fun a j => colsum_step i j a) a)
            (negate (divide (split normal 1) (split normal 2))))
          ((List.range' 1 (normal.rows - 1)).foldl
            (fun b i => (List.range' 1 (normal.cols - 1)).foldl (fun b j => rowsum_step i j b) b)
            (negate (divide (split normal 0) (split normal 2)))) := by
  simp only [calculate_depth, depth_loop_eq]
  rfl

/-- The depth map has the shape of the normal map. -/
theorem calculate_depth_shape (normal : Mat (Vec3f K)) (hwf : normal.WF) :
    (calculate_depth normal).rows = normal.rows ∧ (calculate_depth normal).cols = normal.cols ∧
    (calculate_depth normal).WF := by
  obtain ⟨-, -, w1⟩ := slope_mat_shape normal hwf 1
  obtain ⟨-, -, w2⟩ := slope_mat_shape normal hwf 0
  obtain ⟨hc1, hr1, hl1, -⟩ := colsum_loop _ w1 normal.rows normal.cols rfl rfl
  obtain ⟨hc2, hr2, hl2, -⟩ := rowsum_loop _ w2 normal.rows normal.cols rfl rfl
  rw [calculate_depth_eq]
  refine ⟨hr1, hc1, ?_⟩
  unfold Mat.WF
  rw [show ∀ a b : Mat K, (add a b).rows = a.rows from fun _ _ => rfl,
    show ∀ a b : Mat K, (add a b).cols = a.cols from fun _ _ => rfl, hr1, hc1]
  simp only [add, List.length_zipWith, hl1, hl2, min_self]

/-- What the loop leaves at a pixel, in terms of the slopes. -/
theorem calculate_depth_atRC (normal : Mat (Vec3f K)) (hwf : normal.WF) (i j : Nat)
    (hi : i < normal.rows) (hj : j < normal.cols) :
    (calculate_depth normal).atRC i j
      = (if 1 ≤ i ∧ 1 ≤ j then ∑ k in Finset.range (i + 1), slope_q normal k j
          else slope_q normal i j)
        + (if 1 ≤ i ∧ 1 ≤ j then ∑ k in Finset.range (j + 1), slope_p normal i k
          else slope_p normal i j) := by
  obtain ⟨-, -, w1⟩ := slope_mat_shape normal hwf 1
  obtain ⟨-, -, w2⟩ := slope_mat_shape normal hwf 0
  obtain ⟨hc1, hr1, hl1, hat1⟩ := colsum_loop _ w1 normal.rows normal.cols rfl rfl
  obtain ⟨hc2, hr2, hl2, hat2⟩ := rowsum_loop _ w2 normal.rows normal.cols rfl rfl
  have hidx : i * normal.cols + j < normal.rows * normal.cols := flat_index_lt hi hj
  rw [calculate_depth_eq]
  rw [add_atRC _ _ (by rw [hc1, hc2]) i j (by rw [hc1, hl1]; exact hidx)
    (by rw [hc1, hl2]; exact hidx)]
  rw [hat1 i j hi hj, hat2 i j hi hj]
  have hq : ∀ k ≤ i, (negate (divide (split normal 1) (split normal 2))).atRC k j
      = slope_q normal k j := fun k hk => slope_mat_atRC normal hwf 1 k j (by omega) hj
  have hp : ∀ k ≤ j, (negate (divide (split normal 0) (split normal 2))).atRC i k
      = slope_p normal i k := fun k hk => slope_mat_atRC normal hwf 0 i k hi (by omega)
  by_cases h : 1 ≤ i ∧ 1 ≤ j
  · rw [if_pos h, if_pos h, if_pos h, if_pos h]
    congr 1
    · exact Finset.sum_congr rfl (fun k hk => hq k (by have := Finset.mem_range.mp hk; omega))
    · exact Finset.sum_congr rfl (fun k hk => hp k (by have := Finset.mem_range.mp hk; omega))
  · rw [if_neg h, if_neg h, if_neg h, if_neg h, hq i (le_refl i), hp j (le_refl j)]

end DepthLemmas




/-! ## Lemmas on the loops of `calcualte_normal` -/

section NormalLemmas

variable {K : Type} [LinearOrderedField K]

theorem eps_pos : (0 : K) < eps := by
  unfold eps; positivity

theorem zeros_atRC {α : Type} [Zero α] (H W i j : Nat) : (Mat.zeros H W : Mat α).atRC i j = 0 := by
  simp only [Mat.zeros, Mat.atRC, List.getD_eq_getElem?_getD, List.getElem?_replicate]
  split <;> rfl

theorem zeros_shaped (H W : Nat) : Shaped H W ((Mat.zeros H W : Mat (Vec3f K)), (Mat.zeros H W : Mat K)) := by
  refine ⟨rfl, rfl, ?_, rfl, rfl, ?_⟩ <;> simp [Mat.WF, Mat.zeros]

theorem gather_some {n : Nat} (data : Fin n → Sample K) (idx : Nat)
    (h : ∀ k : Fin n, idx < (data k).2.data.length) :
    gather data idx = some (fun k => (data k).2.atIdx idx) := by
  unfold gather
  rw [dif_pos h]
  congr 1
  funext k
  simp only [Mat.atIdx, List.getD_eq_getElem?_getD, List.getElem?_eq_getElem (h k)]
  rfl

theorem normal_step_eq (sqrt : K → K) {n : Nat} (S_sol : Matrix (Fin 3) (Fin n) K)
    (data : Fin n → Sample K) (i r_idx j : Nat) (st : Mat (Vec3f K) × Mat K)
    (h : ∀ k : Fin n, r_idx + j < (data k).2.data.length) :
    normal_step sqrt S_sol data i r_idx j st
      = some (if eps < norm_L2 sqrt (pixel_b S_sol data (r_idx + j)) then
          (st.1.setRC i j (fun c => pixel_b S_sol data (r_idx + j) c
              / norm_L2 sqrt (pixel_b S_sol data (r_idx + j))),
           st.2.setIdx (r_idx + j) (norm_L2 sqrt (pixel_b S_sol data (r_idx + j))))
        else st) := by
  unfold normal_step
  rw [gather_some data _ h]
  simp only [pixel_b, gt_iff_lt]
  split <;> rfl

/-- Row `i` of the pixel loop, after the columns `0 .. t - 1`. -/
theorem normal_row_spec (sqrt : K → K) {n : Nat} (S_sol : Matrix (Fin 3) (Fin n) K)
    (data : Fin n → Sample K) (H W : Nat) (hdata : ∀ k : Fin n, (data k).2.data.length = H * W)
    (i : Nat) (hi : i < H) (st : Mat (Vec3f K) × Mat K) (hst : Shaped H W st)
    (t : Nat) (ht : t ≤ W) :
    ∃ st', (List.range t).foldlM (fun st j => normal_step sqrt S_sol data i (i * W) j st) st
        = some st' ∧ Shaped H W st' ∧
      ∀ i' j', j' < W →
        st'.1.atRC i' j'
          = (if i' = i ∧ j' < t ∧ eps < norm_L2 sqrt (pixel_b S_sol data (i * W + j')) then
              (fun c => pixel_b S_sol data (i * W + j') c
                / norm_L2 sqrt (pixel_b S_sol data (i * W + j')))
            else st.1.atRC i' j') ∧
        st'.2.atRC i' j'
          = (if i' = i ∧ j' < t ∧ eps < norm_L2 sqrt (pixel_b S_sol data (i * W + j')) then
              norm_L2 sqrt (pixel_b S_sol data (i * W + j'))
            else st.2.atRC i' j') := by
  induction t with
  | zero =>
    refine ⟨st, rfl, hst, ?_⟩
    intro i' j' _
    have hne : ¬ (i' = i ∧ j' < 0 ∧ eps < norm_L2 sqrt (pixel_b S_sol data (i * W + j'))) := by
      rintro ⟨_, h, _⟩; omega
    rw [if_neg hne, if_neg hne]
    exact ⟨rfl, rfl⟩
  | succ t ih =>
    obtain ⟨st1, hfold, hsh, hat⟩ := ih (by omega)
    have hread : ∀ k : Fin n, i * W + t < (data k).2.data.length := by
      intro k; rw [hdata k]; exact flat_index_lt hi (by omega)
    rw [List.range_succ, List.foldlM_append, hfold]
    simp only [Option.bind_eq_bind, Option.some_bind, List.foldlM_cons, List.foldlM_nil,
      normal_step_eq sqrt S_sol data i (i * W) t st1 hread, Option.pure_def, Option.bind_some]
    obtain ⟨hr1, hc1, hw1, hr2, hc2, hw2⟩ := hsh
    by_cases hb : eps < norm_L2 sqrt (pixel_b S_sol data (i * W + t))
    · rw [if_pos hb]
      refine ⟨_, rfl, ⟨hr1, hc1, Mat.setRC_WF _ hw1 _ _ _, hr2, hc2, ?_⟩, ?_⟩
      · have : st1.2.setIdx (i * W + t) (norm_L2 sqrt (pixel_b S_sol data (i * W + t)))
            = st1.2.setRC i t (norm_L2 sqrt (pixel_b S_sol data (i * W + t))) := by
          unfold Mat.setIdx Mat.setRC; rw [hc2]
        rw [this]; exact Mat.setRC_WF _ hw2 _ _ _
      · intro i' j' hj'
        have e2 : st1.2.setIdx (i * W + t) (norm_L2 sqrt (pixel_b S_sol data (i * W + t)))
            = st1.2.setRC i t (norm_L2 sqrt (pixel_b S_sol data (i * W + t))) := by
          unfold Mat.setIdx Mat.setRC; rw [hc2]
        simp only [e2]
        rw [Mat.atRC_setRC st1.1 hw1 (by rw [hr1]; exact hi) (by rw [hc1]; omega) _ _ _
            (by rw [hc1]; exact hj'),
          Mat.atRC_setRC st1.2 hw2 (by rw [hr2]; exact hi) (by rw [hc2]; omega) _ _ _
            (by rw [hc2]; exact hj'),
          (hat i' j' hj').1, (hat i' j' hj').2]
        by_cases h1 : i' = i ∧ j' = t
        · have hp : i' = i ∧ j' < t + 1 ∧ eps < norm_L2 sqrt (pixel_b S_sol data (i * W + j')) :=
            ⟨h1.1, by omega, by rw [h1.2]; exact hb⟩
          simp only [if_pos h1, if_pos hp]
          obtain ⟨rfl, rfl⟩ := h1
          exact ⟨rfl, rfl⟩
        · simp only [if_neg h1]
          by_cases h2 : i' = i ∧ j' < t ∧ eps < norm_L2 sqrt (pixel_b S_sol data (i * W + j'))
          · have hp : i' = i ∧ j' < t + 1 ∧ eps < norm_L2 sqrt (pixel_b S_sol data (i * W + j')) :=
              ⟨h2.1, by omega, h2.2.2⟩
            simp only [if_pos h2, if_pos hp]
            exact ⟨trivial, trivial⟩
          · have hp : ¬ (i' = i ∧ j' < t + 1 ∧ eps < norm_L2 sqrt (pixel_b S_sol data (i * W + j'))) := by
              rintro ⟨ha, hb', hc⟩
              have : j' ≠ t := fun e => h1 ⟨ha, e⟩
              exact h2 ⟨ha, by omega, hc⟩
            simp only [if_neg h2, if_neg hp]
            exact ⟨trivial, trivial⟩
    · rw [if_neg hb]
      refine ⟨st1, rfl, ⟨hr1, hc1, hw1, hr2, hc2, hw2⟩, ?_⟩
      intro i' j' hj'
      rw [(hat i' j' hj').1, (hat i' j' hj').2]
      by_cases h2 : i' = i ∧ j' < t ∧ eps < norm_L2 sqrt (pixel_b S_sol data (i * W + j'))
      · have hp : i' = i ∧ j' < t + 1 ∧ eps < norm_L2 sqrt (pixel_b S_sol data (i * W + j')) :=
          ⟨h2.1, by omega, h2.2.2⟩
        simp only [if_pos h2, if_pos hp]
        exact ⟨trivial, trivial⟩
      · have hp : ¬ (i' = i ∧ j' < t + 1 ∧ eps < norm_L2 sqrt (pixel_b S_sol data (i * W + j'))) := by
          rintro ⟨ha, hb', hc⟩
          by_cases e : j' = t
          · subst e; exact hb hc
          · exact h2 ⟨ha, by omega, hc⟩
        simp only [if_neg h2, if_neg hp]
        exact ⟨trivial, trivial⟩

/-- The pixel loop after the rows `0 .. s - 1`. -/
theorem normal_loop_spec (sqrt : K → K) {n : Nat} (S_sol : Matrix (Fin 3) (Fin n) K)
    (data : Fin n → Sample K) (H W : Nat) (hdata : ∀ k : Fin n, (data k).2.data.length = H * W)
    (st : Mat (Vec3f K) × Mat K) (hst : Shaped H W st) (s : Nat) (hs : s ≤ H) :
    ∃ st', (List.range s).foldlM
        (fun (acc : (Mat (Vec3f K) × Mat K) × Nat) i =>
          match normal_row sqrt S_sol data W i acc.2 acc.1 with
          | none => none
          | some st => some (st, acc.2 + W))
        (st, 0) = some (st', s * W) ∧ Shaped H W st' ∧
      ∀ i' j', j' < W →
        st'.1.atRC i' j'
          = (if i' < s ∧ eps < norm_L2 sqrt (pixel_b S_sol data (i' * W + j')) then
              (fun c => pixel_b S_sol data (i' * W + j') c
                / norm_L2 sqrt (pixel_b S_sol data (i' * W + j')))
            else st.1.atRC i' j') ∧
        st'.2.atRC i' j'
          = (if i' < s ∧ eps < norm_L2 sqrt (pixel_b S_sol data (i' * W + j')) then
              norm_L2 sqrt (pixel_b S_sol data (i' * W + j'))
            else st.2.atRC i' j') := by
  induction s with
  | zero =>
    refine ⟨st, by simp, hst, ?_⟩
    intro i' j' _
    have hne : ¬ (i' < 0 ∧ eps < norm_L2 sqrt (pixel_b S_sol data (i' * W + j'))) := by
      rintro ⟨h, _⟩; omega
    rw [if_neg hne, if_neg hne]
    exact ⟨rfl, rfl⟩
  | succ s ih =>
    obtain ⟨st1, hfold, hsh, hat⟩ := ih (by omega)
    obtain ⟨st2, hrow, hsh2, hat2⟩ :=
      normal_row_spec sqrt S_sol data H W hdata s (by omega) st1 hsh W (le_refl W)
    rw [List.range_succ, List.foldlM_append, hfold]
    have hrow' : normal_row sqrt S_sol data W s (s * W) st1 = some st2 := hrow
    simp only [Option.bind_eq_bind, Option.some_bind, List.foldlM_cons, List.foldlM_nil, hrow',
      Option.pure_def, Option.bind_some]
    refine ⟨st2, by rw [Nat.succ_mul], hsh2, ?_⟩
    intro i' j' hj'
    rw [(hat2 i' j' hj').1, (hat2 i' j' hj').2, (hat i' j' hj').1, (hat i' j' hj').2]
    by_cases h1 : i' = s
    · have hidx : s * W + j' = i' * W + j' := by rw [h1]
      have hn : ¬ (i' < s ∧ eps < norm_L2 sqrt (pixel_b S_sol data (i' * W + j'))) := by
        rintro ⟨h, _⟩; omega
      by_cases hb : eps < norm_L2 sqrt (pixel_b S_sol data (i' * W + j'))
      · have hp : i' = s ∧ j' < W ∧ eps < norm_L2 sqrt (pixel_b S_sol data (s * W + j')) :=
          ⟨h1, hj', by rw [hidx]; exact hb⟩
        have hq : i' < s + 1 ∧ eps < norm_L2 sqrt (pixel_b S_sol data (i' * W + j')) :=
          ⟨by omega, hb⟩
        rw [if_pos hp, if_pos hp, if_pos hq, if_pos hq, hidx]
        exact ⟨rfl, rfl⟩
      · have hp : ¬ (i' = s ∧ j' < W ∧ eps < norm_L2 sqrt (pixel_b S_sol data (s * W + j'))) := by
          rintro ⟨_, _, h⟩
          rw [hidx] at h
          exact hb h
        have hq : ¬ (i' < s + 1 ∧ eps < norm_L2 sqrt (pixel_b S_sol data (i' * W + j'))) :=
          fun h => hb h.2
        rw [if_neg hp, if_neg hp, if_neg hn, if_neg hn, if_neg hq, if_neg hq]
        exact ⟨rfl, rfl⟩
    · have hp : ¬ (i' = s ∧ j' < W ∧ eps < norm_L2 sqrt (pixel_b S_sol data (s * W + j'))) :=
        fun h => h1 h.1
      rw [if_neg hp, if_neg hp]
      by_cases h2 : i' < s ∧ eps < norm_L2 sqrt (pixel_b S_sol data (i' * W + j'))
      · have hq : i' < s + 1 ∧ eps < norm_L2 sqrt (pixel_b S_sol data (i' * W + j')) :=
          ⟨by omega, h2.2⟩
        rw [if_pos h2, if_pos h2, if_pos hq, if_pos hq]
        exact ⟨rfl, rfl⟩
      · have hq : ¬ (i' < s + 1 ∧ eps < norm_L2 sqrt (pixel_b S_sol data (i' * W + j'))) := by
          rintro ⟨ha, hc⟩
          exact h2 ⟨by omega, hc⟩
        rw [if_neg h2, if_neg h2, if_neg hq, if_neg hq]
        exact ⟨rfl, rfl⟩

/-- The result of `calcualte_normal` on samples whose images are all `H x W`. -/
theorem calcualte_normal_spec (sqrt : K → K) {n : Nat}
    (invert : Matrix (Fin n) (Fin 3) K → Matrix (Fin 3) (Fin n) K)
    (data : Fin n → Sample K) (hn : 0 < n) (H W : Nat)
    (hsize : ∀ k : Fin n, (data k).2.rows = H ∧ (data k).2.cols = W ∧ (data k).2.WF) :
    ∃ normal albedo, calcualte_normal sqrt invert data = some (normal, albedo) ∧
      Shaped H W (normal, albedo) ∧
      ∀ i j, i < H → j < W →
        normal.atRC i j
          = (if eps < norm_L2 sqrt (pixel_b (invert (light_matrix data)) data (i * W + j)) then
              (fun c => pixel_b (invert (light_matrix data)) data (i * W + j) c
                / norm_L2 sqrt (pixel_b (invert (light_matrix data)) data (i * W + j)))
            else 0) ∧
        albedo.atRC i j
          = (if eps < norm_L2 sqrt (pixel_b (invert (light_matrix data)) data (i * W + j)) then
              norm_L2 sqrt (pixel_b (invert (light_matrix data)) data (i * W + j))
            else 0) := by
  have hdata : ∀ k : Fin n, (data k).2.data.length = H * W := by
    intro k
    obtain ⟨hr, hc, hw⟩ := hsize k
    rw [← hr, ← hc]; exact hw
  obtain ⟨st', hfold, hsh, hat⟩ :=
    normal_loop_spec sqrt (invert (light_matrix data)) data H W hdata
      ((Mat.zeros H W : Mat (Vec3f K)), (Mat.zeros H W : Mat K)) (zeros_shaped H W) H (le_refl H)
  refine ⟨st'.1, st'.2, ?_, hsh, ?_⟩
  · unfold calcualte_normal
    rw [dif_pos hn]
    simp only [(hsize ⟨0, hn⟩).1, (hsize ⟨0, hn⟩).2.1]
    unfold normal_loop
    rw [hfold]
  · intro i j hi hj
    rw [(hat i j hj).1, (hat i j hj).2, zeros_atRC, zeros_atRC]
    by_cases hb : eps < norm_L2 sqrt (pixel_b (invert (light_matrix data)) data (i * W + j))
    · rw [if_pos hb, if_pos hb, if_pos ⟨hi, hb⟩, if_pos ⟨hi, hb⟩]
      exact ⟨rfl, rfl⟩
    · have hq : ¬ (i < H ∧ eps < norm_L2 sqrt (pixel_b (invert (light_matrix data)) data (i * W + j))) :=
        fun h => hb h.2
      rw [if_neg hb, if_neg hb, if_neg hq, if_neg hq]
      exact ⟨rfl, rfl⟩

end NormalLemmas

/-! ## The depth integrator: claims -/

section DepthClaims

variable {K : Type} [Field K]

/-- C10: for a normal map of size `h x w` and a pixel `(i, j)` of it, the loop of
`calculate_depth` accumulates only where `i >= 1` and `j >= 1`: there
`depth(i, j) = (sum over k = 0..i of q(k, j)) + (sum over k = 0..j of p(i, k))`;
in the first row and in the first column `depth(i, j) = p(i, j) + q(i, j)`. -/
theorem C10_loop_accumulates_interior_only (normal : Mat (Vec3f K)) (hwf : normal.WF)
    (i j : Nat) (hi : i < normal.rows) (hj : j < normal.cols) :
    (1 ≤ i ∧ 1 ≤ j →
      (calculate_depth normal).atRC i j
        = (∑ k in Finset.range (i + 1), slope_q normal k j)
          + ∑ k in Finset.range (j + 1), slope_p normal i k) ∧
    (i = 0 ∨ j = 0 →
      (calculate_depth normal).atRC i j = slope_p normal i j + slope_q normal i j) := by
  have h := calculate_depth_atRC normal hwf i j hi hj
  constructor
  · intro hij
    rw [h, if_pos hij, if_pos hij]
  · intro hij
    have hn : ¬ (1 ≤ i ∧ 1 ≤ j) := by omega
    rw [h, if_neg hn, if_neg hn, add_comm]

/-- C10 at the interior pixel `(1, 1)` of a 2 x 2 normal map. -/
theorem C10_loop_accumulates_interior_only_witness :
    (1 ≤ 1 ∧ 1 ≤ 1 →
      (calculate_depth (⟨2, 2, [![-1, 0, 1], ![-1, -2, 1], ![-3, -5, 1], ![-7, -11, 1]]⟩ :
          Mat (Vec3f ℚ))).atRC 1 1
        = (∑ k in Finset.range (1 + 1),
            slope_q (⟨2, 2, [![-1, 0, 1], ![-1, -2, 1], ![-3, -5, 1], ![-7, -11, 1]]⟩ :
              Mat (Vec3f ℚ)) k 1)
          + ∑ k in Finset.range (1 + 1),
            slope_p (⟨2, 2, [![-1, 0, 1], ![-1, -2, 1], ![-3, -5, 1], ![-7, -11, 1]]⟩ :
              Mat (Vec3f ℚ)) 1 k) ∧
    (1 = 0 ∨ 1 = 0 →
      (calculate_depth (⟨2, 2, [![-1, 0, 1], ![-1, -2, 1], ![-3, -5, 1], ![-7, -11, 1]]⟩ :
          Mat (Vec3f ℚ))).atRC 1 1
        = slope_p (⟨2, 2, [![-1, 0, 1], ![-1, -2, 1], ![-3, -5, 1], ![-7, -11, 1]]⟩ :
              Mat (Vec3f ℚ)) 1 1
          + slope_q (⟨2, 2, [![-1, 0, 1], ![-1, -2, 1], ![-3, -5, 1], ![-7, -11, 1]]⟩ :
              Mat (Vec3f ℚ)) 1 1) :=
  C10_loop_accumulates_interior_only
    (⟨2, 2, [![-1, 0, 1], ![-1, -2, 1], ![-3, -5, 1], ![-7, -11, 1]]⟩ : Mat (Vec3f ℚ))
    (by decide) 1 1 (by decide) (by decide)

/-- C3, at the failing input: on the 1 x 2 normal map with both normals `(-1, 0, 1)`
(so `p = 1`, `q = 0` at both pixels) `calculate_depth` leaves `depth(0, 1) = 1`, while
`rowIntegral(0, 1) + colIntegral(0, 1) = q(0, 1) + (p(0, 0) + p(0, 1)) = 2`. -/
theorem C3_first_row_not_accumulated :
    (calculate_depth (⟨1, 2, [![-1, 0, 1], ![-1, 0, 1]]⟩ : Mat (Vec3f ℚ))).atRC 0 1 = 1 ∧
    (∑ k in Finset.range (0 + 1),
        slope_q (⟨1, 2, [![-1, 0, 1], ![-1, 0, 1]]⟩ : Mat (Vec3f ℚ)) k 1)
      + (∑ k in Finset.range (1 + 1),
        slope_p (⟨1, 2, [![-1, 0, 1], ![-1, 0, 1]]⟩ : Mat (Vec3f ℚ)) 0 k) = 2 := by
  constructor
  · simp [calculate_depth, depth_loop, split, divide, negate, add, Mat.atRC]
  · simp [Finset.sum_range_succ, slope_p, slope_q, Mat.atRC]
    norm_num

/-- C7 fails as stated: on a 2 x 2 normal map the depth map is `[1, 3; 8, 23]`, whose
first row and first column hold no zero. -/
theorem C7_boundary_not_zero :
    (calculate_depth (⟨2, 2, [![-1, 0, 1], ![-1, -2, 1], ![-3, -5, 1], ![-7, -11, 1]]⟩ :
        Mat (Vec3f ℚ))).data = [1, 3, 8, 23] ∧
    (calculate_depth (⟨2, 2, [![-1, 0, 1], ![-1, -2, 1], ![-3, -5, 1], ![-7, -11, 1]]⟩ :
        Mat (Vec3f ℚ))).atRC 0 0 ≠ 0 := by
  have h : (calculate_depth (⟨2, 2, [![-1, 0, 1], ![-1, -2, 1], ![-3, -5, 1], ![-7, -11, 1]]⟩ :
        Mat (Vec3f ℚ))).data = [1, 3, 8, 23] := by
    simp [calculate_depth, depth_loop, depth_step, split, divide, negate, add, Mat.atRC,
      Mat.setRC, List.range']
    norm_num
  refine ⟨h, ?_⟩
  simp [Mat.atRC, h]

/-- C7, amended: the prefix sums start with the slopes of the pixel itself and not with
zero; the corner entry of the depth map is `depth(0, 0) = p(0, 0) + q(0, 0)`. -/
theorem C7_corner_is_own_slopes (normal : Mat (Vec3f K)) (hwf : normal.WF)
    (hrows : 0 < normal.rows) (hcols : 0 < normal.cols) :
    (calculate_depth normal).atRC 0 0 = slope_p normal 0 0 + slope_q normal 0 0 := by
  have h := calculate_depth_atRC normal hwf 0 0 hrows hcols
  have hn : ¬ (1 ≤ 0 ∧ 1 ≤ 0) := by omega
  rw [h, if_neg hn, if_neg hn, add_comm]

/-- C7, amended, on a 2 x 2 normal map. -/
theorem C7_corner_is_own_slopes_witness :
    (calculate_depth (⟨2, 2, [![-1, 0, 1], ![-1, -2, 1], ![-3, -5, 1], ![-7, -11, 1]]⟩ :
        Mat (Vec3f ℚ))).atRC 0 0
      = slope_p (⟨2, 2, [![-1, 0, 1], ![-1, -2, 1], ![-3, -5, 1], ![-7, -11, 1]]⟩ :
          Mat (Vec3f ℚ)) 0 0
        + slope_q (⟨2, 2, [![-1, 0, 1], ![-1, -2, 1], ![-3, -5, 1], ![-7, -11, 1]]⟩ :
          Mat (Vec3f ℚ)) 0 0 :=
  C7_corner_is_own_slopes
    (⟨2, 2, [![-1, 0, 1], ![-1, -2, 1], ![-3, -5, 1], ![-7, -11, 1]]⟩ : Mat (Vec3f ℚ))
    (by decide) (by decide) (by decide)

/-- C4 fails as stated: the 2 x 3 normal map `saddle_normals` is built from the slope
field of `D(i, j) = i * j` as the claim asks, and `calculate_depth` returns
`depth(1, 1) = 4 = D(1, 1) + 3` and `depth(1, 2) = 7 = D(1, 2) + 5`: no single offset. -/
theorem C4_saddle_has_no_single_offset :
    (∀ i j, i < 2 → j < 3 →
      saddle_normals.atRC i j 2 ≠ 0 ∧
      (1 ≤ j → slope_p saddle_normals i j = saddle_depth i j - saddle_depth i (j - 1)) ∧
      (1 ≤ i → slope_q saddle_normals i j = saddle_depth i j - saddle_depth (i - 1) j)) ∧
    (calculate_depth saddle_normals).data = [0, 1, 2, 1, 4, 7] ∧
    ¬ ∃ c : ℚ, ∀ i j, 1 ≤ i → i < 2 → 1 ≤ j → j < 3 →
      (calculate_depth saddle_normals).atRC i j = saddle_depth i j + c := by
  have hd : (calculate_depth saddle_normals).data = [0, 1, 2, 1, 4, 7] := by
    simp [saddle_normals, calculate_depth, depth_loop, depth_step, split, divide, negate, add,
      Mat.atRC, Mat.setRC, List.range']
    norm_num
  have hc : (calculate_depth saddle_normals).cols = 3 := rfl
  refine ⟨?_, hd, ?_⟩
  · intro i j hi hj
    interval_cases i <;> interval_cases j <;>
      norm_num [saddle_normals, saddle_depth, slope_p, slope_q, Mat.atRC]
  · rintro ⟨c, h⟩
    have h1 := h 1 1 (le_refl 1) (by omega) (le_refl 1) (by omega)
    have h2 := h 1 2 (le_refl 1) (by omega) (by omega) (by omega)
    simp only [Mat.atRC, hc, hd, saddle_depth] at h1 h2
    norm_num at h1 h2
    linarith

/-- C4, amended: when the normal map is built from the slope field of `D`
(`p(i, j) = D(i, j) - D(i, j-1)` for `j >= 1`, `q(i, j) = D(i, j) - D(i-1, j)` for
`i >= 1`, `nz != 0`), at every pixel with `i >= 1` and `j >= 1`
`depth(i, j) = 2 D(i, j) - D(0, j) - D(i, 0) + q(0, j) + p(i, 0)`; hence
`depth = D + c` for one constant `c` when `D(i, j) = f(i) + g(j)` and the boundary
slopes `q(0, .)` and `p(., 0)` are constant. -/
theorem C4_round_trip_formula (normal : Mat (Vec3f K)) (hwf : normal.WF) (D : Nat → Nat → K)
    (hnz : ∀ i j, i < normal.rows → j < normal.cols → normal.atRC i j 2 ≠ 0)
    (hp : ∀ i j, i < normal.rows → 1 ≤ j → j < normal.cols →
      slope_p normal i j = D i j - D i (j - 1))
    (hq : ∀ i j, 1 ≤ i → i < normal.rows → j < normal.cols →
      slope_q normal i j = D i j - D (i - 1) j) :
    (∀ i j, 1 ≤ i → i < normal.rows → 1 ≤ j → j < normal.cols →
      (calculate_depth normal).atRC i j
        = 2 * D i j - D 0 j - D i 0 + slope_q normal 0 j + slope_p normal i 0) ∧
    (∀ (f g : Nat → K) (p0 q0 : K), (∀ i j, D i j = f i + g j) →
      (∀ j, j < normal.cols → slope_q normal 0 j = q0) →
      (∀ i, i < normal.rows → slope_p normal i 0 = p0) →
      ∃ c : K, ∀ i j, 1 ≤ i → i < normal.rows → 1 ≤ j → j < normal.cols →
        (calculate_depth normal).atRC i j = D i j + c) := by
  have hnz' := hnz
  have key : ∀ i j, 1 ≤ i → i < normal.rows → 1 ≤ j → j < normal.cols →
      (calculate_depth normal).atRC i j
        = 2 * D i j - D 0 j - D i 0 + slope_q normal 0 j + slope_p normal i 0 := by
    intro i j hi1 hi hj1 hj
    rw [calculate_depth_atRC normal hwf i j hi hj, if_pos ⟨hi1, hj1⟩, if_pos ⟨hi1, hj1⟩,
      Finset.sum_range_succ', Finset.sum_range_succ']
    have e1 : ∑ k in Finset.range i, slope_q normal (k + 1) j
        = ∑ k in Finset.range i, (D (k + 1) j - D k j) := by
      refine Finset.sum_congr rfl (fun k hk => ?_)
      have hk' := Finset.mem_range.mp hk
      rw [hq (k + 1) j (by omega) (by omega) hj]
      rfl
    have e2 : ∑ k in Finset.range j, slope_p normal i (k + 1)
        = ∑ k in Finset.range j, (D i (k + 1) - D i k) := by
      refine Finset.sum_congr rfl (fun k hk => ?_)
      have hk' := Finset.mem_range.mp hk
      rw [hp i (k + 1) hi (by omega) (by omega)]
      rfl
    rw [e1, e2, Finset.sum_range_sub (fun k => D k j) i, Finset.sum_range_sub (fun k => D i k) j]
    ring
  refine ⟨key, ?_⟩
  intro f g p0 q0 hD hq0 hp0
  refine ⟨q0 + p0 - f 0 - g 0, ?_⟩
  intro i j hi1 hi hj1 hj
  rw [key i j hi1 hi hj1 hj, hq0 j hj, hp0 i hi, hD i j, hD 0 j, hD i 0]
  ring

/-- C4, amended, on the normal map `saddle_normals` and `D(i, j) = i * j`. -/
theorem C4_round_trip_formula_witness :
    (∀ i j, 1 ≤ i → i < saddle_normals.rows → 1 ≤ j → j < saddle_normals.cols →
      (calculate_depth saddle_normals).atRC i j
        = 2 * saddle_depth i j - saddle_depth 0 j - saddle_depth i 0
          + slope_q saddle_normals 0 j + slope_p saddle_normals i 0) ∧
    (∀ (f g : Nat → ℚ) (p0 q0 : ℚ), (∀ i j, saddle_depth i j = f i + g j) →
      (∀ j, j < saddle_normals.cols → slope_q saddle_normals 0 j = q0) →
      (∀ i, i < saddle_normals.rows → slope_p saddle_normals i 0 = p0) →
      ∃ c : ℚ, ∀ i j, 1 ≤ i → i < saddle_normals.rows → 1 ≤ j → j < saddle_normals.cols →
        (calculate_depth saddle_normals).atRC i j = saddle_depth i j + c) :=
  C4_round_trip_formula saddle_normals (by decide) saddle_depth
    (by
      intro i j hi hj
      have hi' : i < 2 := hi
      have hj' : j < 3 := hj
      interval_cases i <;> interval_cases j <;> simp [saddle_normals, Mat.atRC])
    (by
      intro i j hi hj1 hj
      have hi' : i < 2 := hi
      have hj' : j < 3 := hj
      interval_cases i <;> interval_cases j <;>
        norm_num [saddle_normals, saddle_depth, slope_p, Mat.atRC])
    (by
      intro i j hi1 hi hj
      have hi' : i < 2 := hi
      have hj' : j < 3 := hj
      interval_cases i
      interval_cases j <;> simp [saddle_normals, saddle_depth, slope_q, Mat.atRC])

end DepthClaims

/-! ## The estimator: supporting lemmas -/

section EstimatorLemmas

variable {K : Type} [LinearOrderedField K]

theorem IsSqrt.zero {sqrt : K → K} (h : IsSqrt sqrt) : sqrt 0 = 0 :=
  mul_self_eq_zero.mp (h 0 (le_refl 0)).2

theorem IsSqrt.mul_self {sqrt : K → K} (h : IsSqrt sqrt) {x : K} (hx : 0 ≤ x) :
    sqrt (x * x) = x :=
  (mul_self_inj_of_nonneg (h (x * x) (mul_self_nonneg x)).1 hx).mp
    (h (x * x) (mul_self_nonneg x)).2

theorem IsSqrt.one {sqrt : K → K} (h : IsSqrt sqrt) : sqrt 1 = 1 := by
  have := h.mul_self (x := (1 : K)) zero_le_one
  rwa [mul_one] at this

theorem sum_squares_nonneg (b : Vec3f K) : 0 ≤ b 0 * b 0 + b 1 * b 1 + b 2 * b 2 :=
  add_nonneg (add_nonneg (mul_self_nonneg _) (mul_self_nonneg _)) (mul_self_nonneg _)

/-- Two matrices of one shape with the same entries are equal. -/
theorem Mat.ext_atRC {α : Type} [Zero α] (a b : Mat α) (H W : Nat)
    (ha : a.rows = H ∧ a.cols = W ∧ a.WF) (hb : b.rows = H ∧ b.cols = W ∧ b.WF)
    (h : ∀ i j, i < H → j < W → a.atRC i j = b.atRC i j) : a = b := by
  obtain ⟨ar, ac, ad⟩ := a
  obtain ⟨br, bc, bd⟩ := b
  obtain ⟨h1, h2, h3⟩ := ha
  obtain ⟨h4, h5, h6⟩ := hb
  simp only [Mat.WF] at h1 h2 h3 h4 h5 h6
  subst h1 h2 h4 h5
  have hlen : ad.length = bd.length := by rw [h3, h6]
  have hdata : ad = bd := by
    apply List.ext_getElem hlen
    intro idx hi1 hi2
    have hidx : idx < br * bc := by rw [← h3]; exact hi1
    have hW : 0 < bc := by
      rcases Nat.eq_zero_or_pos bc with h0 | h0
      · rw [h0] at hidx; simp at hidx
      · exact h0
    have hi : idx / bc < br := by
      apply Nat.div_lt_of_lt_mul
      rw [Nat.mul_comm]; exact hidx
    have hj : idx % bc < bc := Nat.mod_lt _ hW
    have e := h (idx / bc) (idx % bc) hi hj
    simp only [Mat.atRC, Nat.div_add_mod', List.getD_eq_getElem?_getD,
      List.getElem?_eq_getElem hi1, List.getElem?_eq_getElem hi2, Option.getD_some] at e
    exact e
  rw [hdata]

/-- The Moore-Penrose pseudoinverse is unique. -/
theorem IsMoorePenrose.unique {n : Nat} {A : Matrix (Fin n) (Fin 3) K}
    {X Y : Matrix (Fin 3) (Fin n) K} (hX : IsMoorePenrose A X) (hY : IsMoorePenrose A Y) :
    X = Y := by
  obtain ⟨x1, x2, x3, x4⟩ := hX
  obtain ⟨y1, y2, y3, y4⟩ := hY
  have h1 : X = X * A * Y :=
    calc X = X * A * X := x2.symm
      _ = X * (A * X).transpose := by rw [x3, Matrix.mul_assoc]
      _ = X * (X.transpose * (A * Y * A).transpose) := by rw [y1, Matrix.transpose_mul]
      _ = X * (X.transpose * (A.transpose * (A * Y))) := by
          rw [Matrix.transpose_mul (A * Y) A, y3]
      _ = X * ((A * X).transpose * (A * Y)) := by
          rw [Matrix.transpose_mul A X, Matrix.mul_assoc]
      _ = X * A * X * A * Y := by rw [x3]; simp only [Matrix.mul_assoc]
      _ = X * A * Y := by rw [x2]
  have h2 : Y = X * A * Y :=
    calc Y = Y * A * Y := y2.symm
      _ = (Y * A).transpose * Y := by rw [y4]
      _ = (A * X * A).transpose * Y.transpose * Y := by rw [x1, Matrix.transpose_mul]
      _ = (X * A) * A.transpose * Y.transpose * Y := by
          rw [Matrix.mul_assoc A X A, Matrix.transpose_mul A (X * A), x4]
      _ = (X * A) * (Y * A).transpose * Y := by
          rw [Matrix.transpose_mul Y A]; simp only [Matrix.mul_assoc]
      _ = X * A * (Y * A * Y) := by rw [y4]; simp only [Matrix.mul_assoc]
      _ = X * A * Y := by rw [y2]
  rw [h1]; exact h2.symm

/-- Whatever the samples, the matrix `S` the program builds has the Moore-Penrose
pseudoinverse `S^T / (3 * sum of x_k^2)`, with `x_k` the first component of direction `k`
(the zero matrix when every `x_k` is zero). -/
theorem light_matrix_pinv {n : Nat} (data : Fin n → Sample K) :
    IsMoorePenrose (light_matrix data)
      ((1 / (3 * ∑ k, (data k).1 0 * (data k).1 0)) • (light_matrix data).transpose) := by
  obtain ⟨q, hq⟩ : ∃ q : K, q = ∑ k, (data k).1 0 * (data k).1 0 := ⟨_, rfl⟩
  rw [← hq]
  have hS : ∀ i j, light_matrix data i j = (data i).1 0 := fun i j => rfl
  have hX : ∀ j i, ((1 / (3 * q)) • (light_matrix data).transpose) j i
      = 1 / (3 * q) * (data i).1 0 := fun j i => rfl
  have hSX : ∀ i i', (light_matrix data * ((1 / (3 * q)) • (light_matrix data).transpose)) i i'
      = 3 * (1 / (3 * q)) * ((data i).1 0 * (data i').1 0) := by
    intro i i'
    simp only [Matrix.mul_apply, Fin.sum_univ_three, hS, hX]
    ring
  have hXS : ∀ j j', (((1 / (3 * q)) • (light_matrix data).transpose) * light_matrix data) j j'
      = 1 / (3 * q) * q := by
    intro j j'
    simp only [Matrix.mul_apply, hS, hX]
    have e : ∑ k, 1 / (3 * q) * (data k).1 0 * (data k).1 0
        = 1 / (3 * q) * ∑ k, (data k).1 0 * (data k).1 0 := by
      rw [Finset.mul_sum]
      exact Finset.sum_congr rfl (fun k _ => by ring)
    rw [e, ← hq]
  have hx : ∀ i, 3 * (1 / (3 * q)) * q * (data i).1 0 = (data i).1 0 := by
    intro i
    by_cases h0 : q = 0
    · have hz : ∀ k ∈ Finset.univ, (data k).1 0 * (data k).1 0 = 0 :=
        (Finset.sum_eq_zero_iff_of_nonneg (fun k _ => mul_self_nonneg _)).mp (hq ▸ h0)
      have := mul_self_eq_zero.mp (hz i (Finset.mem_univ i))
      rw [this, mul_zero]
    · field_simp
  refine ⟨?_, ?_, ?_, ?_⟩
  · ext i j
    rw [Matrix.mul_apply]
    simp only [hSX, hS]
    have e : ∑ k, 3 * (1 / (3 * q)) * ((data i).1 0 * (data k).1 0) * (data k).1 0
        = 3 * (1 / (3 * q)) * (∑ k, (data k).1 0 * (data k).1 0) * (data i).1 0 := by
      rw [Finset.mul_sum, Finset.sum_mul]
      exact Finset.sum_congr rfl (fun k _ => by ring)
    rw [e, ← hq, hx i]
  · ext j i
    rw [Matrix.mul_apply]
    simp only [hXS, hX, Fin.sum_univ_three]
    have := hx i
    linear_combination (1 / (3 * q)) * this
  · ext i i'
    rw [Matrix.transpose_apply, hSX, hSX]
    ring
  · ext j j'
    rw [Matrix.transpose_apply, hXS, hXS]

/-- With `S_sol` the Moore-Penrose pseudoinverse of the matrix `S` the program builds, the
three components of `b = S_sol * I` are equal at every pixel. -/
theorem pixel_b_components_equal {n : Nat}
    (invert : Matrix (Fin n) (Fin 3) K → Matrix (Fin 3) (Fin n) K) (data : Fin n → Sample K)
    (hinv : IsMoorePenrose (light_matrix data) (invert (light_matrix data)))
    (idx : Nat) (c c' : Fin 3) :
    pixel_b (invert (light_matrix data)) data idx c
      = pixel_b (invert (light_matrix data)) data idx c' := by
  rw [IsMoorePenrose.unique hinv (light_matrix_pinv data)]
  rfl

/-- Permuting the rows of `A` permutes the columns of its pseudoinverse. -/
theorem IsMoorePenrose.permute {n : Nat} {A : Matrix (Fin n) (Fin 3) K}
    {X : Matrix (Fin 3) (Fin n) K} (hX : IsMoorePenrose A X) (σ : Equiv.Perm (Fin n)) :
    IsMoorePenrose (A.submatrix σ id) (X.submatrix id σ) := by
  obtain ⟨x1, x2, x3, x4⟩ := hX
  have hAX : A.submatrix σ id * X.submatrix id σ = (A * X).submatrix σ σ :=
    (Matrix.submatrix_mul A X σ id σ Function.bijective_id).symm
  have hXA : X.submatrix id σ * A.submatrix σ id = X * A := by
    exact Matrix.submatrix_mul_equiv X A id σ id
  refine ⟨?_, ?_, ?_, ?_⟩
  · rw [Matrix.mul_assoc, hXA, ← Matrix.mul_assoc]
    have := (Matrix.submatrix_mul (A * X) A σ id id Function.bijective_id).symm
    have e : (A * X).submatrix σ id * A.submatrix id id = (A * X * A).submatrix σ id := this
    have e2 : A.submatrix σ id * X = (A * X).submatrix σ id := by
      have := (Matrix.submatrix_mul A X σ id id Function.bijective_id).symm
      simpa using this
    rw [e2]
    have e3 : (A * X).submatrix σ id * A = (A * X * A).submatrix σ id := by
      simpa using e
    rw [e3, x1]
  · rw [hXA]
    have e : X * A * X.submatrix id σ = (X * A * X).submatrix id σ := by
      have := (Matrix.submatrix_mul (X * A) X id id σ Function.bijective_id).symm
      simpa using this
    rw [e, x2]
  · rw [hAX, Matrix.transpose_submatrix, x3]
  · rw [hXA, x4]

end EstimatorLemmas

/-! ## The estimator: claims -/

section EstimatorClaims

variable {K : Type} [LinearOrderedField K]

/-- C5: for `n >= 1` samples whose images are all `H x W` and every pixel, the normal is
of Euclidean norm 1 or is the zero vector, the albedo is `>= 0`, and the albedo is zero
exactly when the normal is the zero vector. -/
theorem C5_unit_or_zero_normal (sqrt : K → K) (hsqrt : IsSqrt sqrt) {n : Nat}
    (invert : Matrix (Fin n) (Fin 3) K → Matrix (Fin 3) (Fin n) K)
    (data : Fin n → Sample K) (hn : 0 < n) (H W : Nat)
    (hsize : ∀ k : Fin n, (data k).2.rows = H ∧ (data k).2.cols = W ∧ (data k).2.WF) :
    ∃ normal albedo, calcualte_normal sqrt invert data = some (normal, albedo) ∧
      ∀ i j, i < H → j < W →
        (norm_L2 sqrt (normal.atRC i j) = 1 ∨ normal.atRC i j = 0) ∧
        0 ≤ albedo.atRC i j ∧
        (albedo.atRC i j = 0 ↔ normal.atRC i j = 0) := by
  obtain ⟨normal, albedo, hres, -, hat⟩ := calcualte_normal_spec sqrt invert data hn H W hsize
  refine ⟨normal, albedo, hres, ?_⟩
  intro i j hi hj
  obtain ⟨h1, h2⟩ := hat i j hi hj
  generalize pixel_b (invert (light_matrix data)) data (i * W + j) = b at h1 h2
  by_cases hb : eps < norm_L2 sqrt b
  · rw [h1, h2, if_pos hb, if_pos hb]
    have hpos : 0 < norm_L2 sqrt b := lt_trans eps_pos hb
    have hne : norm_L2 sqrt b ≠ 0 := ne_of_gt hpos
    have hsq : norm_L2 sqrt b * norm_L2 sqrt b = b 0 * b 0 + b 1 * b 1 + b 2 * b 2 :=
      (hsqrt _ (sum_squares_nonneg b)).2
    have hunit : norm_L2 sqrt (fun c => b c / norm_L2 sqrt b) = 1 := by
      have e : b 0 / norm_L2 sqrt b * (b 0 / norm_L2 sqrt b)
          + b 1 / norm_L2 sqrt b * (b 1 / norm_L2 sqrt b)
          + b 2 / norm_L2 sqrt b * (b 2 / norm_L2 sqrt b) = 1 := by
        field_simp
        linarith
      show sqrt _ = 1
      rw [e, hsqrt.one]
    refine ⟨Or.inl hunit, le_of_lt hpos, ?_⟩
    constructor
    · intro h0; exact absurd h0 hne
    · intro h0
      rw [h0] at hunit
      simp only [norm_L2, Pi.zero_apply, mul_zero, add_zero, hsqrt.zero] at hunit
      exact absurd hunit zero_ne_one
  · rw [h1, h2, if_neg hb, if_neg hb]
    exact ⟨Or.inr rfl, le_refl 0, ⟨fun _ => rfl, fun _ => rfl⟩⟩

/-- C6: for `n >= 1` samples whose images are all `H x W` and every permutation `σ` of
the samples, with `invert` giving the Moore-Penrose pseudoinverse of the matrix `S` the
program builds from either list, `calcualte_normal` returns the same normal map and the
same albedo map on the permuted list as on the original one. -/
theorem C6_permutation_invariance (sqrt : K → K) {n : Nat}
    (invert : Matrix (Fin n) (Fin 3) K → Matrix (Fin 3) (Fin n) K)
    (data : Fin n → Sample K) (hn : 0 < n) (H W : Nat)
    (hsize : ∀ k : Fin n, (data k).2.rows = H ∧ (data k).2.cols = W ∧ (data k).2.WF)
    (σ : Equiv.Perm (Fin n))
    (hinv : IsMoorePenrose (light_matrix data) (invert (light_matrix data)))
    (hinvσ : IsMoorePenrose (light_matrix (fun k => data (σ k)))
      (invert (light_matrix (fun k => data (σ k))))) :
    calcualte_normal sqrt invert (fun k => data (σ k)) = calcualte_normal sqrt invert data := by
  obtain ⟨normal, albedo, hres, hsh, hat⟩ := calcualte_normal_spec sqrt invert data hn H W hsize
  obtain ⟨normal', albedo', hres', hsh', hat'⟩ :=
    calcualte_normal_spec sqrt invert (fun k => data (σ k)) hn H W (fun k => hsize (σ k))
  have hX : invert (light_matrix (fun k => data (σ k)))
      = (invert (light_matrix data)).submatrix id σ :=
    IsMoorePenrose.unique hinvσ (hinv.permute σ)
  have hb : ∀ idx, pixel_b (invert (light_matrix (fun k => data (σ k)))) (fun k => data (σ k)) idx
      = pixel_b (invert (light_matrix data)) data idx := by
    intro idx
    rw [hX]
    funext r
    simp only [pixel_b, Matrix.mulVec, Matrix.dotProduct, Matrix.submatrix_apply, id]
    exact Equiv.sum_comp σ
      (fun k => invert (light_matrix data) r k * (data k).2.atIdx idx)
  have e1 : normal' = normal := by
    apply Mat.ext_atRC normal' normal H W ⟨hsh'.1, hsh'.2.1, hsh'.2.2.1⟩
      ⟨hsh.1, hsh.2.1, hsh.2.2.1⟩
    intro i j hi hj
    rw [(hat' i j hi hj).1, (hat i j hi hj).1, hb]
  have e2 : albedo' = albedo := by
    apply Mat.ext_atRC albedo' albedo H W ⟨hsh'.2.2.2.1, hsh'.2.2.2.2.1, hsh'.2.2.2.2.2⟩
      ⟨hsh.2.2.2.1, hsh.2.2.2.2.1, hsh.2.2.2.2.2⟩
    intro i j hi hj
    rw [(hat' i j hi hj).2, (hat i j hi hj).2, hb]
  rw [hres', hres, e1, e2]

end EstimatorClaims

/-! ## The estimator: concrete inputs -/

section Concrete

theorem real_sqrt_isSqrt : IsSqrt Real.sqrt :=
  fun x hx => ⟨Real.sqrt_nonneg x, Real.mul_self_sqrt hx⟩

theorem one_pixel_size {K : Type} {n : Nat} (L : Fin n → Vec3f K) (I : Fin n → K) (k : Fin n) :
    (one_pixel_data L I k).2.rows = 1 ∧ (one_pixel_data L I k).2.cols = 1 ∧
      (one_pixel_data L I k).2.WF :=
  ⟨rfl, rfl, rfl⟩

theorem axis_not_collinear : ¬ Collinear (axis_directions : Fin 3 → Vec3f ℝ) := by
  rintro ⟨v, hv⟩
  obtain ⟨t0, h0⟩ := hv 0
  obtain ⟨t1, h1⟩ := hv 1
  have a0 := congrFun h0 0
  have a1 := congrFun h0 1
  have b1 := congrFun h1 1
  simp [axis_directions] at a0 a1 b1
  rcases a1 with h | h
  · rw [h] at a0; simp at a0
  · rw [h] at b1; simp at b1

/-- With the light directions along the axes the program builds `S` with the rows
`(1, 1, 1)`, `(0, 0, 0)`, `(0, 0, 0)`. -/
theorem light_matrix_axis (I : Fin 3 → ℝ) :
    light_matrix (one_pixel_data axis_directions I)
      = (!![1, 1, 1; 0, 0, 0; 0, 0, 0] : Matrix (Fin 3) (Fin 3) ℝ) := by
  ext i j
  fin_cases i <;> fin_cases j <;>
    simp [light_matrix, one_pixel_data, axis_directions, Matrix.vecHead, Matrix.vecTail]

/-- With the light directions along the axes the light matrix of the specification is the
identity. -/
theorem spec_light_matrix_axis (I : Fin 3 → ℝ) :
    spec_light_matrix (one_pixel_data axis_directions I) = 1 := by
  ext i j
  fin_cases i <;> fin_cases j <;>
    simp [spec_light_matrix, one_pixel_data, axis_directions, Matrix.vecHead, Matrix.vecTail]

theorem IsMoorePenrose.of_orthogonal {A : Matrix (Fin 3) (Fin 3) ℝ}
    (h1 : A * A.transpose = 1) (h2 : A.transpose * A = 1) : IsMoorePenrose A A.transpose :=
  ⟨by rw [h1, Matrix.one_mul], by rw [h2, Matrix.one_mul], by rw [h1, Matrix.transpose_one],
    by rw [h2, Matrix.transpose_one]⟩

set_option maxHeartbeats 1600000 in
/-- A third of the transpose is the Moore-Penrose pseudoinverse of the matrix with the rows
`(1, 1, 1)`, `(0, 0, 0)`, `(0, 0, 0)`. -/
theorem filled_first_row_pinv :
    IsMoorePenrose (!![1, 1, 1; 0, 0, 0; 0, 0, 0] : Matrix (Fin 3) (Fin 3) ℝ)
      ((1 / 3 : ℝ) • (!![1, 1, 1; 0, 0, 0; 0, 0, 0] : Matrix (Fin 3) (Fin 3) ℝ).transpose) := by
  refine ⟨?_, ?_, ?_, ?_⟩ <;>
  · ext i j
    fin_cases i <;> fin_cases j <;>
      norm_num [Matrix.mul_apply, Fin.sum_univ_three, Matrix.vecHead, Matrix.vecTail]

set_option maxHeartbeats 1600000 in
/-- The same with the rows `(0, 0, 0)`, `(1, 1, 1)`, `(0, 0, 0)`. -/
theorem filled_second_row_pinv :
    IsMoorePenrose (!![0, 0, 0; 1, 1, 1; 0, 0, 0] : Matrix (Fin 3) (Fin 3) ℝ)
      ((1 / 3 : ℝ) • (!![0, 0, 0; 1, 1, 1; 0, 0, 0] : Matrix (Fin 3) (Fin 3) ℝ).transpose) := by
  refine ⟨?_, ?_, ?_, ?_⟩ <;>
  · ext i j
    fin_cases i <;> fin_cases j <;>
      norm_num [Matrix.mul_apply, Fin.sum_univ_three, Matrix.vecHead, Matrix.vecTail]

theorem eps_lt_one : (eps : ℝ) < 1 := by
  unfold eps; norm_num

theorem sqrt_three_ne_five : Real.sqrt 3 ≠ 5 := by
  intro h
  have h3 := Real.mul_self_sqrt (show (0 : ℝ) ≤ 3 by norm_num)
  rw [h] at h3
  norm_num at h3

/-- C1, at the failing input: three one-pixel samples lit along the axes, with
intensities 3, 4, 0.  The program builds `S` with the rows `(1, 1, 1)`, `(0, 0, 0)`,
`(0, 0, 0)`, whose Moore-Penrose pseudoinverse is a third of its transpose, and writes
the normal `(1, 1, 1) / sqrt 3` and the albedo `sqrt 3`.  With `S_sol` the pseudoinverse
of the light matrix (the identity, its own pseudoinverse) the claim has `b = (3, 4, 0)`,
`||b|| = 5 > eps`, the normal `(3/5, 4/5, 0)` and the albedo 5. -/
theorem C1_row_fill_breaks_pixel_solve :
    light_matrix (one_pixel_data axis_directions ![3, 4, 0] : Fin 3 → Sample ℝ)
      = !![1, 1, 1; 0, 0, 0; 0, 0, 0] ∧
    IsMoorePenrose
      (light_matrix (one_pixel_data axis_directions ![3, 4, 0] : Fin 3 → Sample ℝ))
      ((1 / 3 : ℝ) •
        (light_matrix (one_pixel_data axis_directions ![3, 4, 0] : Fin 3 → Sample ℝ)).transpose) ∧
    (∃ normal albedo,
      calcualte_normal Real.sqrt (fun S => (1 / 3 : ℝ) • S.transpose)
        (one_pixel_data axis_directions ![3, 4, 0] : Fin 3 → Sample ℝ) = some (normal, albedo) ∧
      normal.atRC 0 0 = (fun _ => 1 / Real.sqrt 3) ∧ albedo.atRC 0 0 = Real.sqrt 3) ∧
    spec_light_matrix (one_pixel_data axis_directions ![3, 4, 0] : Fin 3 → Sample ℝ) = 1 ∧
    IsMoorePenrose
      (spec_light_matrix (one_pixel_data axis_directions ![3, 4, 0] : Fin 3 → Sample ℝ))
      (spec_light_matrix (one_pixel_data axis_directions ![3, 4, 0] :
        Fin 3 → Sample ℝ)).transpose ∧
    (spec_light_matrix (one_pixel_data axis_directions ![3, 4, 0] :
        Fin 3 → Sample ℝ)).transpose.mulVec
      (fun k => ((one_pixel_data axis_directions ![3, 4, 0] : Fin 3 → Sample ℝ) k).2.atIdx
        (0 * 1 + 0)) = ![3, 4, 0] ∧
    norm_L2 Real.sqrt (![3, 4, 0] : Vec3f ℝ) = 5 ∧
    (eps : ℝ) < 5 ∧
    (fun c => (![3, 4, 0] : Vec3f ℝ) c / 5) = ![3 / 5, 4 / 5, 0] ∧
    Real.sqrt 3 ≠ 5 := by
  refine ⟨light_matrix_axis _, ?_, ?_, spec_light_matrix_axis _, ?_, ?_, ?_, ?_, ?_,
    sqrt_three_ne_five⟩
  · rw [light_matrix_axis]; exact filled_first_row_pinv
  · obtain ⟨normal, albedo, hres, -, hat⟩ :=
      calcualte_normal_spec Real.sqrt (fun S => (1 / 3 : ℝ) • S.transpose)
        (one_pixel_data axis_directions ![3, 4, 0] : Fin 3 → Sample ℝ)
        (by norm_num) 1 1 (one_pixel_size _ _)
    refine ⟨normal, albedo, hres, ?_⟩
    obtain ⟨h1, h2⟩ := hat 0 0 (by norm_num) (by norm_num)
    have hb : pixel_b ((1 / 3 : ℝ) •
          (light_matrix (one_pixel_data axis_directions ![3, 4, 0] :
            Fin 3 → Sample ℝ)).transpose)
        (one_pixel_data axis_directions ![3, 4, 0] : Fin 3 → Sample ℝ) (0 * 1 + 0)
        = fun _ => 1 := by
      rw [light_matrix_axis]
      funext c
      fin_cases c <;>
        norm_num [pixel_b, Matrix.mulVec, Matrix.dotProduct, Fin.sum_univ_three,
          one_pixel_data, Mat.atIdx, Matrix.vecHead, Matrix.vecTail]
    have hnorm : norm_L2 Real.sqrt (fun _ => (1 : ℝ)) = Real.sqrt 3 := by
      unfold norm_L2
      norm_num
    have he : (eps : ℝ) < Real.sqrt 3 :=
      lt_of_lt_of_le eps_lt_one (Real.one_le_sqrt.mpr (by norm_num))
    rw [hb, hnorm, if_pos he] at h1 h2
    exact ⟨h1, h2⟩
  · rw [spec_light_matrix_axis]
    exact IsMoorePenrose.of_orthogonal (by simp) (by simp)
  · rw [spec_light_matrix_axis]
    funext c
    fin_cases c <;> simp [one_pixel_data, Mat.atIdx]
  · have h5 : (3 : ℝ) * 3 + 4 * 4 + 0 * 0 = 5 * 5 := by norm_num
    simp only [norm_L2, Matrix.cons_val_zero, Matrix.cons_val_one, Matrix.cons_val_two,
      Matrix.head_cons, Matrix.tail_cons, h5]
    exact Real.sqrt_mul_self (by norm_num)
  · exact lt_trans eps_lt_one (by norm_num)
  · funext c
    fin_cases c <;> simp

/-- C2, at the failing input: three one-pixel samples lit along the axes, the unit normal
`N = (2/3, 1/3, 2/3)` and the albedo `a = 3`, so that every sample is lit
(`N . L_k > 0`), the light matrix is the identity and the intensities are `(2, 1, 2)`.
The least-squares solve with the pseudoinverse of the light matrix has `b = (2, 1, 2)`,
`||b|| = 3` and `b / ||b|| = N`.  The program builds `S` with the rows `(1, 1, 1)`,
`(0, 0, 0)`, `(0, 0, 0)` and writes the normal `(1, 1, 1) * (2/3) / sqrt (4/3)` and the
albedo `sqrt (4/3)`, neither `N` nor `a`. -/
theorem C2_row_fill_breaks_recovery :
    dot3 (![2 / 3, 1 / 3, 2 / 3] : Vec3f ℝ) ![2 / 3, 1 / 3, 2 / 3] = 1 ∧
    ¬ Collinear (axis_directions : Fin 3 → Vec3f ℝ) ∧
    (∀ k : Fin 3, 0 < dot3 (![2 / 3, 1 / 3, 2 / 3] : Vec3f ℝ) (axis_directions k)) ∧
    (∀ k : Fin 3,
      ((lambert_data ![2 / 3, 1 / 3, 2 / 3] 3 axis_directions : Fin 3 → Sample ℝ) k).2.atRC 0 0
        = 3 * max 0 (dot3 (![2 / 3, 1 / 3, 2 / 3] : Vec3f ℝ) (axis_directions k))) ∧
    spec_light_matrix (lambert_data ![2 / 3, 1 / 3, 2 / 3] 3 axis_directions :
      Fin 3 → Sample ℝ) = 1 ∧
    (spec_light_matrix (lambert_data ![2 / 3, 1 / 3, 2 / 3] 3 axis_directions :
        Fin 3 → Sample ℝ)).transpose.mulVec
      (fun k => ((lambert_data ![2 / 3, 1 / 3, 2 / 3] 3 axis_directions :
        Fin 3 → Sample ℝ) k).2.atIdx (0 * 1 + 0)) = ![2, 1, 2] ∧
    norm_L2 Real.sqrt (![2, 1, 2] : Vec3f ℝ) = 3 ∧
    (fun c => (![2, 1, 2] : Vec3f ℝ) c / 3) = ![2 / 3, 1 / 3, 2 / 3] ∧
    IsMoorePenrose
      (light_matrix (lambert_data ![2 / 3, 1 / 3, 2 / 3] 3 axis_directions : Fin 3 → Sample ℝ))
      ((1 / 3 : ℝ) •
        (light_matrix (lambert_data ![2 / 3, 1 / 3, 2 / 3] 3 axis_directions :
          Fin 3 → Sample ℝ)).transpose) ∧
    ∃ normal albedo,
      calcualte_normal Real.sqrt (fun S => (1 / 3 : ℝ) • S.transpose)
        (lambert_data ![2 / 3, 1 / 3, 2 / 3] 3 axis_directions : Fin 3 → Sample ℝ)
          = some (normal, albedo) ∧
      normal.atRC 0 0 = (fun _ => 2 / 3 / Real.sqrt (4 / 3)) ∧
      albedo.atRC 0 0 = Real.sqrt (4 / 3) ∧
      normal.atRC 0 0 ≠ ![2 / 3, 1 / 3, 2 / 3] ∧
      albedo.atRC 0 0 ≠ 3 := by
  have hI : ∀ k : Fin 3,
      ((lambert_data ![2 / 3, 1 / 3, 2 / 3] 3 axis_directions : Fin 3 → Sample ℝ) k).2.atIdx 0
        = (![2, 1, 2] : Vec3f ℝ) k := by
    intro k
    have m1 : max (0 : ℝ) (2 / 3) = 2 / 3 := max_eq_right (by norm_num)
    have m2 : max (0 : ℝ) (1 / 3) = 1 / 3 := max_eq_right (by norm_num)
    fin_cases k <;>
      norm_num [lambert_data, one_pixel_data, axis_directions, Mat.atIdx, dot3, Matrix.vecHead,
        Matrix.vecTail, m1, m2]
  refine ⟨?_, axis_not_collinear, ?_, ?_, spec_light_matrix_axis _, ?_, ?_, ?_, ?_, ?_⟩
  · norm_num [dot3]
  · intro k
    fin_cases k <;> norm_num [dot3, axis_directions, Matrix.vecHead, Matrix.vecTail]
  · intro k
    rfl
  · unfold lambert_data
    rw [spec_light_matrix_axis]
    funext c
    have h := hI c
    unfold lambert_data at h
    simp only [Matrix.transpose_one, Matrix.one_mulVec, Nat.zero_mul, Nat.add_zero]
    exact h
  · have h9 : (2 : ℝ) * 2 + 1 * 1 + 2 * 2 = 3 * 3 := by norm_num
    simp only [norm_L2, Matrix.cons_val_zero, Matrix.cons_val_one, Matrix.cons_val_two,
      Matrix.head_cons, Matrix.tail_cons, h9]
    exact Real.sqrt_mul_self (by norm_num)
  · funext c
    fin_cases c <;> simp
  · unfold lambert_data
    rw [light_matrix_axis]; exact filled_first_row_pinv
  · obtain ⟨normal, albedo, hres, -, hat⟩ :=
      calcualte_normal_spec Real.sqrt (fun S => (1 / 3 : ℝ) • S.transpose)
        (lambert_data ![2 / 3, 1 / 3, 2 / 3] 3 axis_directions : Fin 3 → Sample ℝ)
        (by norm_num) 1 1 (one_pixel_size _ _)
    refine ⟨normal, albedo, hres, ?_⟩
    obtain ⟨h1, h2⟩ := hat 0 0 (by norm_num) (by norm_num)
    have hb : pixel_b ((1 / 3 : ℝ) •
          (light_matrix (lambert_data ![2 / 3, 1 / 3, 2 / 3] 3 axis_directions :
            Fin 3 → Sample ℝ)).transpose)
        (lambert_data ![2 / 3, 1 / 3, 2 / 3] 3 axis_directions : Fin 3 → Sample ℝ) (0 * 1 + 0)
        = fun _ => 2 / 3 := by
      have hL : light_matrix (lambert_data ![2 / 3, 1 / 3, 2 / 3] 3 axis_directions :
            Fin 3 → Sample ℝ) = !![1, 1, 1; 0, 0, 0; 0, 0, 0] := by
        unfold lambert_data
        exact light_matrix_axis _
      rw [hL]
      funext c
      simp only [pixel_b, Nat.zero_mul, Nat.add_zero, hI]
      fin_cases c <;>
        norm_num [Matrix.mulVec, Matrix.dotProduct, Fin.sum_univ_three, Matrix.vecHead,
          Matrix.vecTail]
    have hnorm : norm_L2 Real.sqrt (fun _ => (2 / 3 : ℝ)) = Real.sqrt (4 / 3) := by
      unfold norm_L2
      norm_num
    have hpos : (0 : ℝ) < Real.sqrt (4 / 3) := Real.sqrt_pos.mpr (by norm_num)
    have hsq := Real.mul_self_sqrt (show (0 : ℝ) ≤ 4 / 3 by norm_num)
    have he : (eps : ℝ) < Real.sqrt (4 / 3) :=
      lt_of_lt_of_le eps_lt_one (Real.one_le_sqrt.mpr (by norm_num))
    rw [hb, hnorm, if_pos he] at h1 h2
    refine ⟨h1, h2, ?_, ?_⟩
    · intro hN
      rw [h1] at hN
      have c0 := congrFun hN 0
      have c1 := congrFun hN 1
      simp at c0 c1
      rw [c0] at c1
      norm_num at c1
    · rw [h2]
      intro h
      rw [h] at hsq
      norm_num at hsq

/-- C5 on three one-pixel samples lit along the axes, with intensities 3, 4, 0. -/
theorem C5_unit_or_zero_normal_witness :
    ∃ normal albedo,
      calcualte_normal Real.sqrt (fun S => S.transpose)
        (one_pixel_data axis_directions ![3, 4, 0] : Fin 3 → Sample ℝ) = some (normal, albedo) ∧
      ∀ i j, i < 1 → j < 1 →
        (norm_L2 Real.sqrt (normal.atRC i j) = 1 ∨ normal.atRC i j = 0) ∧
        0 ≤ albedo.atRC i j ∧
        (albedo.atRC i j = 0 ↔ normal.atRC i j = 0) :=
  C5_unit_or_zero_normal Real.sqrt real_sqrt_isSqrt (fun S => S.transpose)
    (one_pixel_data axis_directions ![3, 4, 0] : Fin 3 → Sample ℝ) (by norm_num) 1 1
    (one_pixel_size _ _)

/-- C6 on three one-pixel samples lit along the axes, the first two exchanged; `invert`
returns a third of the transpose, the Moore-Penrose pseudoinverse of the matrix `S` the
program builds from either order. -/
theorem C6_permutation_invariance_witness :
    calcualte_normal Real.sqrt (fun S => (1 / 3 : ℝ) • S.transpose)
        (fun k => (one_pixel_data axis_directions ![3, 4, 0] : Fin 3 → Sample ℝ)
          (Equiv.swap (0 : Fin 3) 1 k))
      = calcualte_normal Real.sqrt (fun S => (1 / 3 : ℝ) • S.transpose)
        (one_pixel_data axis_directions ![3, 4, 0] : Fin 3 → Sample ℝ) :=
  C6_permutation_invariance Real.sqrt (fun S => (1 / 3 : ℝ) • S.transpose)
    (one_pixel_data axis_directions ![3, 4, 0] : Fin 3 → Sample ℝ) (by norm_num) 1 1
    (one_pixel_size _ _) (Equiv.swap (0 : Fin 3) 1)
    (by rw [light_matrix_axis]; exact filled_first_row_pinv)
    (by
      have hL : light_matrix (fun k => (one_pixel_data axis_directions ![3, 4, 0] :
            Fin 3 → Sample ℝ) (Equiv.swap (0 : Fin 3) 1 k))
          = (!![0, 0, 0; 1, 1, 1; 0, 0, 0] : Matrix (Fin 3) (Fin 3) ℝ) := by
        ext i j
        fin_cases i <;> fin_cases j <;>
          simp [light_matrix, one_pixel_data, axis_directions, Equiv.swap_apply_def,
            Matrix.vecHead, Matrix.vecTail]
      rw [hL]; exact filled_second_row_pinv)

end Concrete

/-! ## `main`: claims -/

section MainClaims

variable {K : Type} [LinearOrderedField K]

omit [LinearOrderedField K] in
theorem read_data_all_loaded (lines data : List (Sample K))
    (hload : ∀ l ∈ lines, l.2.empty = false) :
    read_data lines data = Except.ok (data ++ lines) := by
  induction lines generalizing data with
  | nil => simp [read_data]
  | cons l ls ih =>
    have hl : l.2.empty = false := hload l (List.mem_cons_self l ls)
    unfold read_data
    rw [if_neg (by rw [hl]; exact Bool.false_ne_true)]
    rw [ih (data ++ [l]) (fun x hx => hload x (List.mem_cons_of_mem l hx))]
    simp

/-- A run in which every image loads reaches `calcualte_normal` with all the lines. -/
theorem main_all_loaded (sqrt : K → K)
    (invert : (n : Nat) → Matrix (Fin n) (Fin 3) K → Matrix (Fin 3) (Fin n) K)
    (lines : List (Sample K)) (hload : ∀ l ∈ lines, l.2.empty = false) :
    main sqrt invert true true lines
      = Except.ok
          ⟨lines.length,
            calcualte_normal sqrt (invert lines.length) (fun k : Fin lines.length => lines.get k),
            (calcualte_normal sqrt (invert lines.length)
              (fun k : Fin lines.length => lines.get k)).map (fun m => calculate_depth m.1)⟩ := by
  unfold main
  rw [if_neg (by decide), if_neg (by decide), read_data_all_loaded lines [] hload]
  simp only [List.nil_append]

/-- C8 fails as stated: with two samples whose images load, `main` reports no error and
hands `n = 2` samples to `calcualte_normal`; with no sample at all it reports no error
either and calls `calcualte_normal` with `n = 0`. -/
theorem C8_fewer_than_three_samples_not_rejected :
    (∃ run : MainRun ℝ,
      main Real.sqrt (fun _ S => S.transpose) true true
        [((![1, 0, 0] : Vec3f ℝ), (⟨1, 1, [1]⟩ : Mat ℝ)), (![0, 1, 0], ⟨1, 1, [1]⟩)]
        = Except.ok run ∧ run.n = 2) ∧
    (∃ run : MainRun ℝ,
      main Real.sqrt (fun _ S => S.transpose) true true [] = Except.ok run ∧ run.n = 0) := by
  constructor
  · exact ⟨_, main_all_loaded Real.sqrt (fun _ S => S.transpose) _ (by
      intro l hl
      simp only [List.mem_cons, List.mem_singleton, List.not_mem_nil, or_false] at hl
      rcases hl with rfl | rfl <;> rfl), rfl⟩
  · exact ⟨_, main_all_loaded Real.sqrt (fun _ S => S.transpose) [] (by simp), rfl⟩

/-- C8, amended: `main` has no check on the number of samples.  When the input directory
is given, the light source file opens and the image of every line loads, `main` reports
no error and calls `calcualte_normal` with the `n` samples read, whatever `n` is. -/
theorem C8_no_check_on_sample_count (sqrt : K → K)
    (invert : (n : Nat) → Matrix (Fin n) (Fin 3) K → Matrix (Fin 3) (Fin n) K)
    (lines : List (Sample K)) (hload : ∀ l ∈ lines, l.2.empty = false) :
    main sqrt invert true true lines
      = Except.ok
          ⟨lines.length,
            calcualte_normal sqrt (invert lines.length) (fun k : Fin lines.length => lines.get k),
            (calcualte_normal sqrt (invert lines.length)
              (fun k : Fin lines.length => lines.get k)).map (fun m => calculate_depth m.1)⟩ :=
  main_all_loaded sqrt invert lines hload

/-- C8, amended, on two samples. -/
theorem C8_no_check_on_sample_count_witness :
    main Real.sqrt (fun _ S => S.transpose) true true
        [((![1, 0, 0] : Vec3f ℝ), (⟨1, 1, [1]⟩ : Mat ℝ)), (![0, 1, 0], ⟨1, 1, [1]⟩)]
      = Except.ok
          ⟨[((![1, 0, 0] : Vec3f ℝ), (⟨1, 1, [1]⟩ : Mat ℝ)), (![0, 1, 0], ⟨1, 1, [1]⟩)].length,
            calcualte_normal Real.sqrt (fun S => S.transpose)
              (fun k : Fin
                  [((![1, 0, 0] : Vec3f ℝ), (⟨1, 1, [1]⟩ : Mat ℝ)), (![0, 1, 0], ⟨1, 1, [1]⟩)].length =>
                [((![1, 0, 0] : Vec3f ℝ), (⟨1, 1, [1]⟩ : Mat ℝ)), (![0, 1, 0], ⟨1, 1, [1]⟩)].get k),
            (calcualte_normal Real.sqrt (fun S => S.transpose)
              (fun k : Fin
                  [((![1, 0, 0] : Vec3f ℝ), (⟨1, 1, [1]⟩ : Mat ℝ)), (![0, 1, 0], ⟨1, 1, [1]⟩)].length =>
                [((![1, 0, 0] : Vec3f ℝ), (⟨1, 1, [1]⟩ : Mat ℝ)), (![0, 1, 0], ⟨1, 1, [1]⟩)].get k)).map
              (fun m => calculate_depth m.1)⟩ :=
  C8_no_check_on_sample_count Real.sqrt (fun _ S => S.transpose)
    [((![1, 0, 0] : Vec3f ℝ), (⟨1, 1, [1]⟩ : Mat ℝ)), (![0, 1, 0], ⟨1, 1, [1]⟩)]
    (by
      intro l hl
      simp only [List.mem_cons, List.mem_singleton, List.not_mem_nil, or_false] at hl
      rcases hl with rfl | rfl <;> rfl)

end MainClaims

end PhotometricStereo
